import Mathlib

/-!
Shallow embedding of the fathom-deck caching/fetch core:
the in-memory URL cache (src/fathom_deck/core/http_cache.py), the
widget fetch helpers (src/fathom_deck/widgets/crypto_price.py,
crypto_market_stats.py, google_news.py), the tenacity retry policy they
are decorated with (stop_after_attempt(3),
wait_exponential(multiplier=1, min=2, max=10), reraise=True), and the
URL utilities (src/fathom_deck/core/utils.py: normalize_url,
is_valid_url) together with the parts of CPython urllib they call
(urlparse, parse_qs, urlencode, quote_plus, unquote_plus).

Python values that can be cached are modelled by the inductive PyVal,
with Python truthiness as PyVal.truthy; time is modelled as explicit
integer seconds passed to every operation that calls datetime.now().
-/

namespace FathomDeck

/-- Model of the Python values that flow through the cache: None, bools,
ints, strings, lists and string-keyed dicts (JSON-ish payloads). -/
inductive PyVal : Type where
  | none : PyVal
  | bool : Bool → PyVal
  | int : Int → PyVal
  | str : String → PyVal
  | list : List PyVal → PyVal
  | dict : List (String × PyVal) → PyVal

/-- Python truthiness of a PyVal: None, False, 0, "", [] and \x7b\x7d are falsy. -/
def PyVal.truthy : PyVal → Bool
  | .none => false
  | .bool b => b
  | .int n => n != 0
  | .str s => s != ""
  | .list xs => !xs.isEmpty
  | .dict xs => !xs.isEmpty

/-- Entry list of the cache: url → (data, timestamp), mirroring the
Python dict self.cache with unique keys. -/
abbrev CacheEntries := List (String × PyVal × Int)

/-- First entry stored under a url, mirroring Python dict lookup. -/
def lookupEntry : CacheEntries → String → Option (PyVal × Int)
  | [], _ => Option.none
  | (k, v, ts) :: rest, url => if k = url then some (v, ts) else lookupEntry rest url

/-- Removal of the entry stored under a url, mirroring del self.cache[url]. -/
def eraseEntry : CacheEntries → String → CacheEntries
  | [], _ => []
  | (k, v, ts) :: rest, url => if k = url then rest else (k, v, ts) :: eraseEntry rest url

/-- Update-or-append of an entry, mirroring self.cache[url] = (data, now). -/
def storeEntry : CacheEntries → String → PyVal → Int → CacheEntries
  | [], url, v, now => [(url, v, now)]
  | (k, v0, ts) :: rest, url, v, now =>
    if k = url then (url, v, now) :: rest else (k, v0, ts) :: storeEntry rest url v now

/-- Model of http_cache.URLCache: an entry map plus the ttl in seconds
(self.ttl = timedelta(seconds=ttl_seconds)). -/
structure URLCache : Type where
  cache : CacheEntries
  ttl : Int

/-- Model of the URLCache constructor with a given ttl_seconds. -/
def mkURLCache (ttlSeconds : Int) : URLCache := ⟨[], ttlSeconds⟩

/-- Default ttl_seconds of the URLCache constructor (3 minute TTL). -/
def defaultTtlSeconds : Int := 180

/-- Model of URLCache.get: returns the stored data when the entry is
present and datetime.now() - timestamp < self.ttl; an expired entry is
deleted; a miss returns Python None.  The Python return value
Optional[Any] is modelled as PyVal with PyVal.none for None, and the
possibly mutated cache is returned alongside. -/
def URLCache.get (c : URLCache) (now : Int) (url : String) : PyVal × URLCache :=
  match lookupEntry c.cache url with
  | some (data, ts) =>
    if now - ts < c.ttl then (data, c)
    else (PyVal.none, { c with cache := eraseEntry c.cache url })
  | Option.none => (PyVal.none, c)

/-- Model of URLCache.set: self.cache[url] = (data, datetime.now()). -/
def URLCache.set (c : URLCache) (now : Int) (url : String) (data : PyVal) : URLCache :=
  { c with cache := storeEntry c.cache url data now }

/-- Errors raised by one attempt of a widget fetch helper:
requests.exceptions.RequestException (connection error, timeout or
raise_for_status on a non-2xx status), or the ValueError subclass raised
by response.json() on a malformed body. -/
inductive PyErr : Type where
  | requestException : PyErr
  | jsonDecodeError : PyErr
deriving BEq, DecidableEq, Repr

/-- Request URL built by CryptoPriceWidget._fetch_from_gemini. -/
def geminiUrl (symbol : String) : String :=
  "https://api.gemini.com/v1/pubticker/" ++ symbol

/-- Model of one attempt of the body of
CryptoPriceWidget._fetch_from_gemini (the function wrapped by the
tenacity retry decorator): check the cache first with a Python
truthiness test (if cached:), otherwise perform the HTTP exchange
(requests.get + raise_for_status, modelled by the http oracle), parse
the body (response.json(), modelled by the parseJson oracle), store the
result in the cache and return it.  The Bool records whether a network
request was issued by this attempt. -/
def geminiBody (st : URLCache) (now : Int) (symbol : String)
    (http : Except Unit String) (parseJson : String → Except Unit PyVal) :
    Except PyErr PyVal × URLCache × Bool :=
  let url := geminiUrl symbol
  let r := st.get now url
  if r.1.truthy then (Except.ok r.1, r.2, false)
  else
    match http with
    | Except.error _ => (Except.error PyErr.requestException, r.2, true)
    | Except.ok body =>
      match parseJson body with
      | Except.error _ => (Except.error PyErr.jsonDecodeError, r.2, true)
      | Except.ok data => (Except.ok data, r.2.set now url data, true)

/-- Model of tenacity wait_exponential(multiplier, min, max) with
exp_base 2: the wait after failed attempt number n is
maxN (maxN 0 mn) (minN (multiplier * 2 ^ (n - 1)) mx). -/
def waitExponential (multiplier mn mx : Nat) (attemptNumber : Nat) : Nat :=
  max (max 0 mn) (min (multiplier * 2 ^ (attemptNumber - 1)) mx)

/-- Model of a tenacity-retried call with stop_after_attempt and
reraise=True: f k is the outcome of attempt number k; the result is the
first success, or the error of the last attempt once the attempt budget
(second argument of retryGo, at least 1) is exhausted.  Returns the
result, the number of attempts actually made, and the list of backoff
waits slept between attempts (wait_exponential(multiplier=1, min=2,
max=10), evaluated at the number of the attempt that just failed). -/
def retryGo (f : Nat → Except PyErr PyVal) : Nat → Nat → Except PyErr PyVal × Nat × List Nat
  | k, 0 => (f k, 1, [])
  | k, 1 => (f k, 1, [])
  | k, n + 2 =>
    match f k with
    | Except.ok a => (Except.ok a, 1, [])
    | Except.error _ =>
      let r := retryGo f (k + 1) (n + 1)
      (r.1, r.2.1 + 1, waitExponential 1 2 10 k :: r.2.2)

/-- Model of the full retry-decorated call as configured in the widgets:
retry(stop=stop_after_attempt(3), wait=wait_exponential(multiplier=1,
min=2, max=10), reraise=True), starting at attempt number 1. -/
def tenacityRun3 (f : Nat → Except PyErr PyVal) : Except PyErr PyVal × Nat × List Nat :=
  retryGo f 1 3

/-- Request URL built by CryptoMarketStatsWidget._fetch_from_coingecko. -/
def coingeckoUrl (coinId : String) : String :=
  "https://api.coingecko.com/api/v3/coins/" ++ coinId

/-- Query parameters of the CoinGecko request, in the insertion order of
the Python dict literal. -/
def coingeckoParams : List (String × String) :=
  [("localization", "false"), ("tickers", "false"), ("market_data", "true"),
   ("community_data", "false"), ("developer_data", "false")]

/-- Comma-join of key=value pairs, the expression
','.join([f'\x7bk\x7d=\x7bv\x7d' for k, v in params.items()]) used by
_fetch_from_coingecko to build its cache key. -/
def joinParamsComma (params : List (String × String)) : String :=
  String.intercalate "," (params.map fun kv => kv.1 ++ "=" ++ kv.2)

/-- Cache key computed by _fetch_from_coingecko:
f"\x7burl\x7d?\x7b','.join([f'\x7bk\x7d=\x7bv\x7d' for k, v in params.items()])\x7d". -/
def coingeckoCacheKey (coinId : String) : String :=
  coingeckoUrl coinId ++ "?" ++ joinParamsComma coingeckoParams

/-- Request URL of GoogleNewsWidget._fetch_from_google_news. -/
def googleNewsUrl : String := "https://news.google.com/rss/search"

/-- Query parameters sent with the Google News request, in dict
insertion order; note ceid is part of the request. -/
def googleNewsParams (query locale region : String) : List (String × String) :=
  [("q", query), ("hl", locale), ("gl", region), ("ceid", region ++ ":en")]

/-- Cache key computed by _fetch_from_google_news:
f"\x7burl\x7d?q=\x7bquery\x7d&hl=\x7blocale\x7d&gl=\x7bregion\x7d" (ceid omitted). -/
def googleNewsCacheKey (query locale region : String) : String :=
  googleNewsUrl ++ "?q=" ++ query ++ "&hl=" ++ locale ++ "&gl=" ++ region

/-- Lexicographic comparison of char lists by code point, used to state
the ascending lexical key order the spec describes. -/
def charListLe : List Char → List Char → Bool
  | [], _ => true
  | _ :: _, [] => false
  | a :: as, b :: bs =>
    if a.toNat < b.toNat then true
    else if b.toNat < a.toNat then false
    else charListLe as bs

/-- Insertion sort of query pairs by key in ascending lexical order,
used only to state the key-formation rule the spec describes. -/
def insertPairSorted (p : String × String) :
    List (String × String) → List (String × String)
  | [] => [p]
  | q :: rest =>
    if charListLe p.1.data q.1.data then p :: q :: rest
    else q :: insertPairSorted p rest

/-- Sort of query pairs by key in ascending lexical order. -/
def sortPairsByKey : List (String × String) → List (String × String)
  | [] => []
  | p :: rest => insertPairSorted p (sortPairsByKey rest)

/-- Modelled from the spec: "Cache key = method + absolute URL +
deterministically-sorted query-parameter pairs (keys in ascending
lexical order, key=value joined, never include headers or body in the
key)".  This definition follows the spec wording, to be compared with
the cache keys the widget code actually computes. -/
def specCacheKey (method url : String) (params : List (String × String)) : String :=
  method ++ url ++ "?" ++
    String.intercalate "&" ((sortPairsByKey params).map fun kv => kv.1 ++ "=" ++ kv.2)

/-- Looking up a key that is not among the entry keys returns nothing. -/
theorem lookupEntry_eq_none_of_not_mem (l : CacheEntries) (url : String)
    (h : url ∉ l.map fun e => e.1) :
    lookupEntry l url = Option.none := by
  induction l with
  | nil => rfl
  | cons hd tl ih =>
    obtain ⟨k, v, ts⟩ := hd
    simp only [List.map_cons, List.mem_cons] at h
    push_neg at h
    have hne : ¬ k = url := fun hk => h.1 hk.symm
    simp only [lookupEntry, if_neg hne]
    exact ih h.2

/-- Deleting a key from an entry list with pairwise-distinct keys (the
Python dict invariant) leaves no entry under that key. -/
theorem lookupEntry_eraseEntry_self (l : CacheEntries) (url : String)
    (hnodup : (l.map fun e => e.1).Nodup) :
    lookupEntry (eraseEntry l url) url = Option.none := by
  induction l with
  | nil => rfl
  | cons hd tl ih =>
    obtain ⟨k, v, ts⟩ := hd
    simp only [List.map_cons, List.nodup_cons] at hnodup
    by_cases hk : k = url
    · subst hk
      simp only [eraseEntry, if_pos rfl]
      exact lookupEntry_eq_none_of_not_mem tl k hnodup.1
    · simp only [eraseEntry, if_neg hk, lookupEntry]
      exact ih hnodup.2

/-- C2: an ephemeral cache entry is valid only while now - captured_at <
ttl (default ttl_seconds 180): a lookup of an entry whose age is at
least the TTL returns None and erases the entry (lazy eviction); in
particular an entry stored at time 0 misses at time 181 under the
default TTL. -/
theorem C2_ttl_expiry_evicts (c : URLCache) (now : Int) (url : String)
    (data : PyVal) (ts : Int)
    (hnodup : (c.cache.map fun e => e.1).Nodup)
    (hfound : lookupEntry c.cache url = some (data, ts))
    (hexpired : c.ttl ≤ now - ts) :
    (c.get now url).1 = PyVal.none ∧
    lookupEntry (c.get now url).2.cache url = Option.none ∧
    (mkURLCache defaultTtlSeconds).ttl = 180 ∧
    (((mkURLCache defaultTtlSeconds).set 0 url data).get 181 url).1 = PyVal.none := by
  have hnotlt : ¬ (now - ts < c.ttl) := by omega
  refine ⟨?_, ?_, rfl, ?_⟩
  · simp only [URLCache.get, hfound, if_neg hnotlt]
  · simp only [URLCache.get, hfound, if_neg hnotlt]
    exact lookupEntry_eraseEntry_self c.cache url hnodup
  · simp only [URLCache.get, URLCache.set, mkURLCache, defaultTtlSeconds, storeEntry,
      lookupEntry, if_pos rfl]
    norm_num

/-- Witness for C2_ttl_expiry_evicts at a concrete cache and time. -/
theorem C2_ttl_expiry_evicts_witness :
    ((⟨[("k", PyVal.str "v", 0)], 180⟩ : URLCache).get 200 "k").1 = PyVal.none ∧
    lookupEntry ((⟨[("k", PyVal.str "v", 0)], 180⟩ : URLCache).get 200 "k").2.cache "k" =
      Option.none := by
  have h := C2_ttl_expiry_evicts ⟨[("k", PyVal.str "v", 0)], 180⟩ 200 "k"
    (PyVal.str "v") 0 (by simp) rfl (by norm_num)
  exact ⟨h.1, h.2.1⟩

/-- Corrected C1: a lookup within the TTL returns exactly the stored
payload, and the widget fetch helper returns the cached payload with no
HTTP request provided the cached payload is truthy (the code guards the
hit path with Python truthiness, if cached:). -/
theorem C1_fresh_hit_no_fetch (c : URLCache) (now : Int) (symbol : String)
    (data : PyVal) (ts : Int)
    (http : Except Unit String) (parseJson : String → Except Unit PyVal)
    (hfound : lookupEntry c.cache (geminiUrl symbol) = some (data, ts))
    (hfresh : now - ts < c.ttl)
    (htruthy : data.truthy = true) :
    (c.get now (geminiUrl symbol)).1 = data ∧
    geminiBody c now symbol http parseJson = (Except.ok data, c, false) := by
  have hget : c.get now (geminiUrl symbol) = (data, c) := by
    simp only [URLCache.get, hfound, if_pos hfresh]
  refine ⟨by rw [hget], ?_⟩
  simp only [geminiBody, hget, htruthy, if_pos]

/-- Witness for C1_fresh_hit_no_fetch at a concrete cache and time. -/
theorem C1_fresh_hit_no_fetch_witness :
    geminiBody ⟨[(geminiUrl "btcusd", PyVal.str "tick", 0)], 180⟩ 60 "btcusd"
      (Except.ok "body") (fun _ => Except.ok (PyVal.str "other")) =
      (Except.ok (PyVal.str "tick"), ⟨[(geminiUrl "btcusd", PyVal.str "tick", 0)], 180⟩,
        false) :=
  (C1_fresh_hit_no_fetch ⟨[(geminiUrl "btcusd", PyVal.str "tick", 0)], 180⟩ 60 "btcusd"
    (PyVal.str "tick") 0 (Except.ok "body") (fun _ => Except.ok (PyVal.str "other"))
    (by simp [lookupEntry]) (by norm_num) rfl).2

/-- Counterexample to C1 as stated: a falsy payload (here the empty
dict) stored under the request URL and looked up well within the TTL
does not suppress the fetch — the widget helper issues a network
request and returns the freshly fetched payload instead of the stored
one. -/
theorem C1_counterexample :
    lookupEntry (⟨[(geminiUrl "btcusd", PyVal.dict [], 0)], 180⟩ : URLCache).cache
      (geminiUrl "btcusd") = some (PyVal.dict [], 0) ∧
    ((60 : Int) - 0 < (180 : Int)) ∧
    (geminiBody ⟨[(geminiUrl "btcusd", PyVal.dict [], 0)], 180⟩ 60 "btcusd"
      (Except.ok "body") (fun _ => Except.ok (PyVal.str "fresh"))).2.2 = true ∧
    (geminiBody ⟨[(geminiUrl "btcusd", PyVal.dict [], 0)], 180⟩ 60 "btcusd"
      (Except.ok "body") (fun _ => Except.ok (PyVal.str "fresh"))).1 =
      Except.ok (PyVal.str "fresh") := by
  refine ⟨by simp [lookupEntry], by norm_num, rfl, rfl⟩

/-- C9: an absent key and a stored None payload are indistinguishable
through URLCache.get (both return None), and whenever the value the
widget helper reads from the cache is falsy the helper issues a fresh
network request even within the TTL window. -/
theorem C9_falsy_payload_is_miss (c : URLCache) (now : Int) (symbol : String) (ts : Int)
    (http : Except Unit String) (parseJson : String → Except Unit PyVal) :
    (lookupEntry c.cache (geminiUrl symbol) = Option.none →
      (c.get now (geminiUrl symbol)).1 = PyVal.none) ∧
    (lookupEntry c.cache (geminiUrl symbol) = some (PyVal.none, ts) →
      (c.get now (geminiUrl symbol)).1 = PyVal.none) ∧
    ((c.get now (geminiUrl symbol)).1.truthy = false →
      (geminiBody c now symbol http parseJson).2.2 = true) := by
  refine ⟨?_, ?_, ?_⟩
  · intro h
    simp only [URLCache.get, h]
  · intro h
    simp only [URLCache.get, h]
    by_cases hlt : now - ts < c.ttl
    · rw [if_pos hlt]
    · rw [if_neg hlt]
  · intro h
    cases http with
    | error e => simp [geminiBody, h]
    | ok body =>
      cases hp : parseJson body with
      | error e => simp [geminiBody, h, hp]
      | ok data => simp [geminiBody, h, hp]

/-- Witness for C9_falsy_payload_is_miss: an empty-string payload cached
moments ago still triggers a network request. -/
theorem C9_falsy_payload_is_miss_witness :
    ((⟨[(geminiUrl "btcusd", PyVal.str "", 0)], 180⟩ : URLCache).get 5
      (geminiUrl "btcusd")).1.truthy = false ∧
    (geminiBody ⟨[(geminiUrl "btcusd", PyVal.str "", 0)], 180⟩ 5 "btcusd"
      (Except.ok "body") (fun _ => Except.ok (PyVal.str "fresh"))).2.2 = true := by
  refine ⟨rfl, ?_⟩
  exact (C9_falsy_payload_is_miss ⟨[(geminiUrl "btcusd", PyVal.str "", 0)], 180⟩ 5 "btcusd"
    0 (Except.ok "body") (fun _ => Except.ok (PyVal.str "fresh"))).2.2 rfl

/-- C3: the retry wrapper makes at most 3 attempts; a call failing on
attempts 1 and 2 and succeeding on attempt 3 returns the successful
result after all 3 attempts; if all 3 attempts fail the error of the
last attempt is re-raised (reraise=True); every backoff wait is
wait_exponential(multiplier=1, min=2, max=10) of the failed attempt
number, hence clamped into [2 s, 10 s], and one such wait is slept
between consecutive attempts. -/
theorem C3_retry_policy (f : Nat → Except PyErr PyVal) (e1 e2 : PyErr) (a : PyVal) :
    (tenacityRun3 f).2.1 ≤ 3 ∧
    (f 1 = Except.error e1 → f 2 = Except.error e2 → f 3 = Except.ok a →
      (tenacityRun3 f).1 = Except.ok a ∧ (tenacityRun3 f).2.1 = 3) ∧
    (∀ e3, f 1 = Except.error e1 → f 2 = Except.error e2 → f 3 = Except.error e3 →
      (tenacityRun3 f).1 = Except.error e3 ∧ (tenacityRun3 f).2.1 = 3) ∧
    (∀ k, waitExponential 1 2 10 k = max 2 (min (2 ^ (k - 1)) 10) ∧
      2 ≤ waitExponential 1 2 10 k ∧ waitExponential 1 2 10 k ≤ 10) ∧
    (tenacityRun3 f).2.2 =
      (List.range ((tenacityRun3 f).2.1 - 1)).map (fun i => waitExponential 1 2 10 (i + 1)) := by
  have hwait : ∀ k, waitExponential 1 2 10 k = max 2 (min (2 ^ (k - 1)) 10) ∧
      2 ≤ waitExponential 1 2 10 k ∧ waitExponential 1 2 10 k ≤ 10 := by
    intro k
    have hform : waitExponential 1 2 10 k = max 2 (min (2 ^ (k - 1)) 10) := by
      simp [waitExponential, Nat.zero_max, Nat.one_mul]
    refine ⟨hform, ?_, ?_⟩
    · rw [hform]
      exact le_max_left 2 _
    · rw [hform]
      exact max_le (by norm_num) (min_le_right _ _)
  refine ⟨?_, ?_, ?_, hwait, ?_⟩
  · rcases h1 : f 1 with e | a1
    · rcases h2 : f 2 with e' | a2
      · simp [tenacityRun3, retryGo, h1, h2]
      · simp [tenacityRun3, retryGo, h1, h2]
    · simp [tenacityRun3, retryGo, h1]
  · intro h1 h2 h3
    simp [tenacityRun3, retryGo, h1, h2, h3]
  · intro e3 h1 h2 h3
    simp [tenacityRun3, retryGo, h1, h2, h3]
  · rcases h1 : f 1 with e | a1
    · rcases h2 : f 2 with e' | a2
      · simp [tenacityRun3, retryGo, h1, h2, List.range_succ]
      · simp [tenacityRun3, retryGo, h1, h2, List.range_succ]
    · simp [tenacityRun3, retryGo, h1]

/-- Witness for C3_retry_policy: two connection errors then a success
yield the successful payload after exactly 3 attempts. -/
theorem C3_retry_policy_witness :
    (fun k => if k < 3 then (Except.error PyErr.requestException : Except PyErr PyVal)
      else Except.ok (PyVal.str "v")) 1 = Except.error PyErr.requestException ∧
    (tenacityRun3 (fun k => if k < 3 then Except.error PyErr.requestException
      else Except.ok (PyVal.str "v"))).1 = Except.ok (PyVal.str "v") ∧
    (tenacityRun3 (fun k => if k < 3 then Except.error PyErr.requestException
      else Except.ok (PyVal.str "v"))).2.1 = 3 := by
  have h := (C3_retry_policy (fun k => if k < 3 then Except.error PyErr.requestException
    else Except.ok (PyVal.str "v")) PyErr.requestException PyErr.requestException
    (PyVal.str "v")).2.1 rfl rfl rfl
  exact ⟨rfl, h.1, h.2⟩

/-- Corrected C4: a body that fails JSON decoding inside the
retry-wrapped helper raises an error that IS retried like any other
failure — on a persistent malformed body the helper performs all 3
attempts, each issuing a fresh network request, before the parse error
propagates. -/
theorem C4_parse_error_retried (st : URLCache) (now : Int) (symbol : String)
    (body : String) (parseJson : String → Except Unit PyVal)
    (hmiss : (st.get now (geminiUrl symbol)).1.truthy = false)
    (hbad : parseJson body = Except.error ()) :
    (geminiBody st now symbol (Except.ok body) parseJson).1 =
      Except.error PyErr.jsonDecodeError ∧
    (geminiBody st now symbol (Except.ok body) parseJson).2.2 = true ∧
    (tenacityRun3 (fun _ => (geminiBody st now symbol (Except.ok body) parseJson).1)).1 =
      Except.error PyErr.jsonDecodeError ∧
    (tenacityRun3 (fun _ => (geminiBody st now symbol (Except.ok body) parseJson).1)).2.1 =
      3 := by
  have hbody : geminiBody st now symbol (Except.ok body) parseJson =
      (Except.error PyErr.jsonDecodeError, (st.get now (geminiUrl symbol)).2, true) := by
    simp only [geminiBody, hmiss, Bool.false_eq_true, if_false, hbad]
  refine ⟨by rw [hbody], by rw [hbody], ?_, ?_⟩
  · simp [tenacityRun3, retryGo, hbody]
  · simp [tenacityRun3, retryGo, hbody]

/-- Witness for C4_parse_error_retried on an empty cache and an
always-malformed body. -/
theorem C4_parse_error_retried_witness :
    ((mkURLCache 180).get 0 (geminiUrl "btcusd")).1.truthy = false ∧
    (tenacityRun3 (fun _ => (geminiBody (mkURLCache 180) 0 "btcusd" (Except.ok "nonsense")
      (fun _ => Except.error ())).1)).2.1 = 3 :=
  ⟨rfl, (C4_parse_error_retried (mkURLCache 180) 0 "btcusd" "nonsense"
    (fun _ => Except.error ()) rfl rfl).2.2.2⟩

/-- Counterexample to C4 as stated: with an empty cache and an HTTP
exchange that succeeds with a malformed body on every attempt, the
retry-wrapped helper performs 3 attempts, each issuing a network
request — not a single parse attempt without re-entering the retry
loop. -/
theorem C4_counterexample :
    (geminiBody (mkURLCache 180) 0 "btcusd" (Except.ok "nonsense")
      (fun _ => Except.error ())).2.2 = true ∧
    (tenacityRun3 (fun _ => (geminiBody (mkURLCache 180) 0 "btcusd" (Except.ok "nonsense")
      (fun _ => Except.error ())).1)).2.1 = 3 ∧
    ¬ (tenacityRun3 (fun _ => (geminiBody (mkURLCache 180) 0 "btcusd" (Except.ok "nonsense")
      (fun _ => Except.error ())).1)).2.1 = 1 := by
  refine ⟨rfl, rfl, by decide⟩

/-- Counterexample to C5 as stated: the cache keys the widgets compute
contain no HTTP method and are not sorted by key — they differ from the
spec-modelled method + URL + sorted key=value signature, both with the
method included and with it empty; moreover the comma-join the code
uses is sensitive to parameter order, so two requests differing only in
query-parameter order would not map to the same key. -/
theorem C5_counterexample :
    coingeckoCacheKey "bitcoin" ≠
      specCacheKey "GET" (coingeckoUrl "bitcoin") coingeckoParams ∧
    coingeckoCacheKey "bitcoin" ≠
      specCacheKey "" (coingeckoUrl "bitcoin") coingeckoParams ∧
    googleNewsCacheKey "btc" "en-US" "US" ≠
      specCacheKey "GET" googleNewsUrl (googleNewsParams "btc" "en-US" "US") ∧
    joinParamsComma [("a", "1"), ("b", "2")] ≠
      joinParamsComma [("b", "2"), ("a", "1")] := by
  refine ⟨by decide, by decide, by decide, by decide⟩

/-- Amended C5: the CoinGecko cache key is the URL plus "?" plus the
key=value pairs joined with commas in dict insertion order (unsorted,
no method), and the Google News cache key is the URL plus the literal
q, hl, gl pairs (omitting the ceid parameter that is sent with the
request). -/
theorem C5_cache_key_shape :
    coingeckoCacheKey "bitcoin" =
      "https://api.coingecko.com/api/v3/coins/bitcoin?localization=false,tickers=false,market_data=true,community_data=false,developer_data=false" ∧
    googleNewsCacheKey "bitcoin" "en-US" "US" =
      "https://news.google.com/rss/search?q=bitcoin&hl=en-US&gl=US" ∧
    googleNewsParams "bitcoin" "en-US" "US" =
      [("q", "bitcoin"), ("hl", "en-US"), ("gl", "US"), ("ceid", "US:en")] := by
  refine ⟨by decide, by decide, by decide⟩

/-! Model of the pieces of CPython urllib.parse used by normalize_url
and is_valid_url.  Python str values are modelled as List Char (Unicode
scalar values); percent-encoding works on the UTF-8 bytes of the
string, modelled as List Nat. -/

/-- UTF-8 encoding of one scalar value. -/
def utf8EncodeChar (c : Char) : List Nat :=
  let n := c.toNat
  if n < 0x80 then [n]
  else if n < 0x800 then [0xC0 + n / 64, 0x80 + n % 64]
  else if n < 0x10000 then [0xE0 + n / 4096, 0x80 + (n / 64) % 64, 0x80 + n % 64]
  else [0xF0 + n / 262144, 0x80 + (n / 4096) % 64, 0x80 + (n / 64) % 64, 0x80 + n % 64]

/-- UTF-8 encoding of a string. -/
def utf8Encode : List Char → List Nat
  | [] => []
  | c :: cs => utf8EncodeChar c ++ utf8Encode cs

/-- Continuation byte test (0x80..0xBF). -/
def isCont (b : Nat) : Bool := 0x80 ≤ b && b ≤ 0xBF

/-- Allowed range of the first continuation byte after a given leading
byte, per the UTF-8 validity table (rules out overlong forms,
surrogates and values above U+10FFFF). -/
def cont1Lo (b1 : Nat) : Nat :=
  if b1 = 0xE0 then 0xA0 else if b1 = 0xF0 then 0x90 else 0x80

/-- Upper bound companion of cont1Lo. -/
def cont1Hi (b1 : Nat) : Nat :=
  if b1 = 0xED then 0x9F else if b1 = 0xF4 then 0x8F else 0xBF

/-- Fuel-indexed worker of the UTF-8 replace decoder; the fuel is an
upper bound on the number of bytes left and only ensures structural
recursion. -/
def utf8DecodeGo : Nat → List Nat → List Char
  | _, [] => []
  | 0, _ :: _ => []
  | fuel + 1, b1 :: t1 =>
    if b1 < 0x80 then Char.ofNat b1 :: utf8DecodeGo fuel t1
    else if 0xC2 ≤ b1 && b1 ≤ 0xDF then
      match t1 with
      | [] => ['�']
      | b2 :: t2 =>
        if isCont b2 then Char.ofNat ((b1 - 0xC0) * 64 + (b2 - 0x80)) :: utf8DecodeGo fuel t2
        else '�' :: utf8DecodeGo fuel t1
    else if 0xE0 ≤ b1 && b1 ≤ 0xEF then
      match t1 with
      | [] => ['�']
      | b2 :: t2 =>
        if cont1Lo b1 ≤ b2 && b2 ≤ cont1Hi b1 then
          match t2 with
          | [] => ['�']
          | b3 :: t3 =>
            if isCont b3 then
              Char.ofNat ((b1 - 0xE0) * 4096 + (b2 - 0x80) * 64 + (b3 - 0x80)) ::
                utf8DecodeGo fuel t3
            else '�' :: utf8DecodeGo fuel t2
        else '�' :: utf8DecodeGo fuel t1
    else if 0xF0 ≤ b1 && b1 ≤ 0xF4 then
      match t1 with
      | [] => ['�']
      | b2 :: t2 =>
        if cont1Lo b1 ≤ b2 && b2 ≤ cont1Hi b1 then
          match t2 with
          | [] => ['�']
          | b3 :: t3 =>
            if isCont b3 then
              match t3 with
              | [] => ['�']
              | b4 :: t4 =>
                if isCont b4 then
                  Char.ofNat ((b1 - 0xF0) * 262144 + (b2 - 0x80) * 4096 +
                    (b3 - 0x80) * 64 + (b4 - 0x80)) :: utf8DecodeGo fuel t4
                else '�' :: utf8DecodeGo fuel t3
            else '�' :: utf8DecodeGo fuel t2
        else '�' :: utf8DecodeGo fuel t1
    else '�' :: utf8DecodeGo fuel t1

/-- UTF-8 decoding with errors="replace": valid sequences decode to
their scalar value, an invalid or truncated sequence yields U+FFFD and
decoding resumes (bytes of a rejected prefix are consumed one
replacement at a time, which agrees with strict maximal-subpart
decoding on every byte stream produced by utf8Encode). -/
def utf8DecodeReplace (bs : List Nat) : List Char := utf8DecodeGo bs.length bs

/-- Bytes quote never escapes: ASCII letters, digits and _.-~
(urllib's always-safe set). -/
def alwaysSafeByte (b : Nat) : Bool :=
  (0x41 ≤ b && b ≤ 0x5A) || (0x61 ≤ b && b ≤ 0x7A) || (0x30 ≤ b && b ≤ 0x39) ||
    b = 0x5F || b = 0x2E || b = 0x2D || b = 0x7E

/-- Uppercase hex digit of a value below 16, as used by quote. -/
def hexUpperDigit (n : Nat) : Char :=
  if n < 10 then Char.ofNat (0x30 + n) else Char.ofNat (0x41 + (n - 10))

/-- Percent-escaping of a byte stream given extra safe bytes, the core
of urllib.parse.quote. -/
def quoteBytes (safe : List Nat) : List Nat → List Char
  | [] => []
  | b :: bs =>
    if alwaysSafeByte b || safe.contains b then Char.ofNat b :: quoteBytes safe bs
    else '%' :: hexUpperDigit (b / 16) :: hexUpperDigit (b % 16) :: quoteBytes safe bs

/-- Model of urllib.parse.quote on a string with the given safe bytes:
escape every UTF-8 byte outside the safe sets. -/
def quoteChars (safe : List Nat) (s : List Char) : List Char :=
  quoteBytes safe (utf8Encode s)

/-- Model of urllib.parse.quote_plus with safe="": if the string
contains a space, quote with space safe and then replace spaces by +;
otherwise plain quote. -/
def quotePlusChars (s : List Char) : List Char :=
  if s.contains ' ' then
    (quoteChars [0x20] s).map fun c => if c = ' ' then '+' else c
  else quoteChars [] s

/-- Hex digit value (both cases), as accepted by percent-escapes. -/
def hexDigitVal (c : Char) : Option Nat :=
  if '0' ≤ c && c ≤ '9' then some (c.toNat - 0x30)
  else if 'A' ≤ c && c ≤ 'F' then some (c.toNat - 0x41 + 10)
  else if 'a' ≤ c && c ≤ 'f' then some (c.toNat - 0x61 + 10)
  else Option.none

/-- Fuel-indexed worker of the unquote model: ASCII characters and
decoded %XX escapes accumulate (reversed) into one byte run; a
non-ASCII character flushes the run through the UTF-8 replace decoder,
matching how urllib.parse.unquote byte-decodes ASCII chunks.  The fuel
is an upper bound on the characters left and only ensures structural
recursion. -/
def unquoteGo : Nat → List Char → List Nat → List Char
  | _, [], acc => utf8DecodeReplace acc.reverse
  | 0, s, acc => utf8DecodeReplace acc.reverse ++ s
  | fuel + 1, c :: rest, acc =>
    if c = '%' then
      match rest with
      | c1 :: c2 :: rest2 =>
        match hexDigitVal c1, hexDigitVal c2 with
        | some hi, some lo => unquoteGo fuel rest2 ((hi * 16 + lo) :: acc)
        | _, _ => unquoteGo fuel (c1 :: c2 :: rest2) (0x25 :: acc)
      | _ => unquoteGo fuel rest (0x25 :: acc)
    else if c.toNat < 0x80 then unquoteGo fuel rest (c.toNat :: acc)
    else utf8DecodeReplace acc.reverse ++ c :: unquoteGo fuel rest []

/-- Model of urllib.parse.unquote with encoding utf-8, errors replace. -/
def unquoteChars (s : List Char) : List Char := unquoteGo s.length s []

/-- Model of urllib.parse.unquote_plus: plus signs become spaces, then
unquote. -/
def unquotePlusChars (s : List Char) : List Char :=
  unquoteChars (s.map fun c => if c = '+' then ' ' else c)

/-- Split of a char list on a separator, mirroring Python str.split:
the empty string yields one empty field. -/
def splitOnChar (sep : Char) : List Char → List (List Char)
  | [] => [[]]
  | c :: rest =>
    match splitOnChar sep rest with
    | [] => [[]]
    | s :: ss => if c = sep then [] :: s :: ss else (c :: s) :: ss

/-- Split at the first '=', mirroring name_value.split('=', 1): nothing
when there is no '='. -/
def splitFirstEq (s : List Char) : Option (List Char × List Char) :=
  let pre := s.takeWhile fun c => c != '='
  if pre.length < s.length then some (pre, s.drop (pre.length + 1)) else Option.none

/-- Treatment of one field by parse_qsl: empty fields, fields without
'=' and fields with an empty value are dropped; names and values are
unquote_plus-decoded. -/
def parseQslStep (seg : List Char) (acc : List (List Char × List Char)) :
    List (List Char × List Char) :=
  if seg.isEmpty then acc
  else
    match splitFirstEq seg with
    | Option.none => acc
    | some (n, v) =>
      if v.isEmpty then acc else (unquotePlusChars n, unquotePlusChars v) :: acc

/-- Model of urllib.parse.parse_qsl with default arguments
(keep_blank_values=False, separator='&'). -/
def parseQsl (qs : List Char) : List (List Char × List Char) :=
  (splitOnChar '&' qs).foldr parseQslStep []

/-- Append of one parsed pair into the ordered dict of lists built by
parse_qs: a known key appends to its value list in place, a new key is
appended at the end. -/
def dictAppend (d : List (List Char × List (List Char))) (k : List Char) (v : List Char) :
    List (List Char × List (List Char)) :=
  match d with
  | [] => [(k, [v])]
  | (k0, vs) :: rest => if k0 = k then (k0, vs ++ [v]) :: rest else (k0, vs) :: dictAppend rest k v

/-- Model of urllib.parse.parse_qs with default arguments: group the
parse_qsl pairs into an insertion-ordered dict of value lists. -/
def parseQs (qs : List Char) : List (List Char × List (List Char)) :=
  (parseQsl qs).foldl (fun d kv => dictAppend d kv.1 kv.2) []

/-- Join of fields with '&', mirroring '&'.join. -/
def joinAmp : List (List Char) → List Char
  | [] => []
  | [s] => s
  | s :: rest => s ++ '&' :: joinAmp rest

/-- Model of urllib.parse.urlencode(query, doseq=True) on a dict of
string lists, with the default quote_plus quoting: each value gets its
own key=value field, fields joined with '&'. -/
def urlencodeDoseq (d : List (List Char × List (List Char))) : List Char :=
  joinAmp (d.flatMap fun kv => kv.2.map fun v => quotePlusChars kv.1 ++ '=' :: quotePlusChars v)

/-- C0 control characters and space, stripped from the start of a URL
by urlsplit. -/
def c0ControlOrSpace (c : Char) : Bool := c.toNat ≤ 0x20

/-- Characters urlsplit keeps: everything except the unsafe bytes tab,
CR and LF. -/
def keepChar (c : Char) : Bool := !(c = '\t' || c = '\r' || c = '\n')

/-- Removal of the unsafe bytes tab, CR and LF anywhere in the URL, as
urlsplit does. -/
def removeUnsafeBytes (l : List Char) : List Char :=
  l.filter keepChar

/-- Input cleaning performed by urlsplit before parsing. -/
def cleanForSplit (l : List Char) : List Char :=
  removeUnsafeBytes (l.dropWhile c0ControlOrSpace)

/-- Characters allowed after the first one in a scheme
(scheme_chars = letters, digits and +-.). -/
def isSchemeChar (c : Char) : Bool := c.isAlpha || c.isDigit || c = '+' || c = '-' || c = '.'

/-- Scheme extraction of urlsplit: the part before the first ':' is the
scheme when it is nonempty, starts with an ASCII letter and continues
with scheme characters; it is lowercased.  Otherwise the URL is left
untouched with an empty scheme. -/
def splitScheme (u : List Char) : List Char × List Char :=
  let pre := u.takeWhile fun c => c != ':'
  match pre with
  | [] => ([], u)
  | c :: cs =>
    if c.isAlpha && cs.all isSchemeChar && decide (pre.length < u.length) then
      (pre.map Char.toLower, u.drop (pre.length + 1))
    else ([], u)

/-- Netloc extraction of urlsplit: after a leading "//" the netloc runs
until the first of '/', '?' or '#'; mismatched square brackets raise
ValueError ("Invalid IPv6 URL"), modelled as an error. -/
def splitNetlocE (u : List Char) : Except Unit (List Char × List Char) :=
  match u with
  | c1 :: c2 :: rest =>
    if c1 = '/' ∧ c2 = '/' then
      let nl := rest.takeWhile fun c => !(c = '/' || c = '?' || c = '#')
      if (nl.contains '[' && !nl.contains ']') || (nl.contains ']' && !nl.contains '[') then
        Except.error ()
      else Except.ok (nl, rest.drop nl.length)
    else Except.ok (([] : List Char), u)
  | _ => Except.ok (([] : List Char), u)

/-- Fragment split of urlsplit: the part after the first '#', when
present. -/
def splitHash (u : List Char) : List Char × List Char :=
  let pre := u.takeWhile fun c => c != '#'
  if pre.length < u.length then (pre, u.drop (pre.length + 1)) else (u, [])

/-- Query split of urlsplit: the part after the first '?', when
present. -/
def splitQmark (u : List Char) : List Char × List Char :=
  let pre := u.takeWhile fun c => c != '?'
  if pre.length < u.length then (pre, u.drop (pre.length + 1)) else (u, [])

/-- Components returned by urlparse as used by normalize_url: scheme,
netloc, path (after params removal), query, fragment. -/
structure ParseResult : Type where
  scheme : List Char
  netloc : List Char
  path : List Char
  query : List Char
  fragment : List Char
deriving DecidableEq, Repr

/-- Model of urllib.parse.urlsplit with default arguments: clean the
input, take the scheme, the netloc (validating brackets), the fragment
and then the query. -/
def urlsplitE (url : List Char) : Except Unit ParseResult :=
  let u := cleanForSplit url
  let sr := splitScheme u
  match splitNetlocE sr.2 with
  | Except.error e => Except.error e
  | Except.ok nr =>
    let hf := splitHash nr.2
    let pq := splitQmark hf.1
    Except.ok ⟨sr.1, nr.1, pq.1, pq.2, hf.2⟩

/-- Schemes for which urlparse splits ;params off the path
(uses_params, including the empty scheme). -/
def usesParams : List (List Char) :=
  [[], 'f' :: 't' :: 'p' :: [], 'h' :: 'd' :: 'l' :: [],
   ('p' :: 'r' :: 'o' :: 's' :: 'p' :: 'e' :: 'r' :: 'o' :: []),
   'h' :: 't' :: 't' :: 'p' :: [], 'i' :: 'm' :: 'a' :: 'p' :: [],
   'h' :: 't' :: 't' :: 'p' :: 's' :: [], 's' :: 'h' :: 't' :: 't' :: 'p' :: [],
   'r' :: 't' :: 's' :: 'p' :: [], 'r' :: 't' :: 's' :: 'p' :: 'u' :: [],
   's' :: 'i' :: 'p' :: [], 's' :: 'i' :: 'p' :: 's' :: [],
   'm' :: 'm' :: 's' :: [], 's' :: 'f' :: 't' :: 'p' :: [], 't' :: 'e' :: 'l' :: []]

/-- Suffix of the path after its last '/'. -/
def afterLastSlash (p : List Char) : List Char :=
  (p.reverse.takeWhile fun c => c != '/').reverse

/-- Model of _splitparams as used on a path containing ';': drop
everything from the first ';' that follows the last '/' (or the first
';' at all when there is no '/'). -/
def splitParamsPath (p : List Char) : List Char :=
  if p.contains '/' then
    let post := afterLastSlash p
    if post.contains ';' then
      p.take (p.length - post.length) ++ post.takeWhile fun c => c != ';'
    else p
  else p.takeWhile fun c => c != ';'

/-- Model of urllib.parse.urlparse with default arguments: urlsplit,
then params removal from the path for the uses_params schemes. -/
def urlparseE (url : List Char) : Except Unit ParseResult :=
  match urlsplitE url with
  | Except.error e => Except.error e
  | Except.ok r =>
    if usesParams.contains r.scheme && r.path.contains ';' then
      Except.ok { r with path := splitParamsPath r.path }
    else Except.ok r

/-- Tracking query parameters removed by normalize_url. -/
def trackingParams : List (List Char) :=
  (["utm_source", "utm_medium", "utm_campaign", "utm_term", "utm_content",
    "fbclid", "gclid", "msclkid", "mc_cid", "mc_eid"] : List String).map String.data

/-- Query-string rewrite performed by normalize_url: parse_qs, drop the
tracking keys, re-encode with urlencode(..., doseq=True); empty result
dict yields the empty query. -/
def cleanQueryStr (q : List Char) : List Char :=
  let filtered := (parseQs q).filter fun kv => decide (kv.1 ∉ trackingParams)
  if filtered.isEmpty then [] else urlencodeDoseq filtered

/-- Model of utils.normalize_url on char lists: on parse success,
rebuild scheme://netloc path with the cleaned query and no fragment; a
parse failure returns the input unchanged. -/
def normalizeList (url : List Char) : List Char :=
  match urlparseE url with
  | Except.error _ => url
  | Except.ok r =>
    let cleanQuery := cleanQueryStr r.query
    let base := r.scheme ++ ':' :: '/' :: '/' :: (r.netloc ++ r.path)
    if cleanQuery.isEmpty then base else base ++ '?' :: cleanQuery

/-- Model of utils.normalize_url. -/
def normalize_url (s : String) : String := String.mk (normalizeList s.data)

/-- Model of utils.is_valid_url: both scheme and netloc nonempty after
parsing; a parse error yields false. -/
def is_valid_url (s : String) : Bool :=
  match urlparseE s.data with
  | Except.ok r => !r.scheme.isEmpty && !r.netloc.isEmpty
  | Except.error _ => false

/-! Facts about the UTF-8 model. -/

/-- Valid range of a scalar value, unfolded from the Char invariant. -/
theorem char_toNat_valid (c : Char) :
    c.toNat < 0xD800 ∨ (0xDFFF < c.toNat ∧ c.toNat < 0x110000) := c.valid

/-- Encoded bytes are bytes. -/
theorem utf8EncodeChar_lt_256 (c : Char) : ∀ b ∈ utf8EncodeChar c, b < 0x100 := by
  have hv := char_toNat_valid c
  intro b hb
  simp only [utf8EncodeChar] at hb
  split at hb
  · simp only [List.mem_singleton] at hb
    omega
  · split at hb
    · simp only [List.mem_cons, List.not_mem_nil, or_false] at hb
      rcases hb with h | h <;> omega
    · split at hb
      · simp only [List.mem_cons, List.not_mem_nil, or_false] at hb
        rcases hb with h | h | h <;> omega
      · simp only [List.mem_cons, List.not_mem_nil, or_false] at hb
        rcases hb with h | h | h | h <;> omega

/-- A character encodes to at least one byte. -/
theorem utf8EncodeChar_ne_nil (c : Char) : utf8EncodeChar c ≠ [] := by
  simp only [utf8EncodeChar]
  split
  · simp
  · split
    · simp
    · split <;> simp

/-- Encoded byte streams are byte streams. -/
theorem utf8Encode_lt_256 (s : List Char) : ∀ b ∈ utf8Encode s, b < 0x100 := by
  induction s with
  | nil => simp [utf8Encode]
  | cons c cs ih =>
    intro b hb
    simp only [utf8Encode, List.mem_append] at hb
    rcases hb with h | h
    · exact utf8EncodeChar_lt_256 c b h
    · exact ih b h

/-- Round trip of the UTF-8 model, fuel-generalized: decoding an
encoded stream with at least enough fuel recovers the characters. -/
theorem utf8DecodeGo_encode (s : List Char) :
    ∀ extra, utf8DecodeGo ((utf8Encode s).length + extra) (utf8Encode s) = s := by
  induction s with
  | nil => intro extra; simp [utf8Encode, utf8DecodeGo]
  | cons c cs ih =>
    intro extra
    have hv := char_toNat_valid c
    by_cases h1 : c.toNat < 0x80
    · have henc : utf8EncodeChar c = [c.toNat] := by
        simp only [utf8EncodeChar]
        rw [if_pos h1]
      have hshape : utf8Encode (c :: cs) = c.toNat :: utf8Encode cs := by
        simp [utf8Encode, henc]
      have hlen : (utf8Encode (c :: cs)).length + extra =
          ((utf8Encode cs).length + extra) + 1 := by
        simp [hshape]
        omega
      rw [hlen, hshape]
      simp only [utf8DecodeGo]
      rw [if_pos h1, Char.ofNat_toNat]
      rw [ih extra]
    · by_cases h2 : c.toNat < 0x800
      · have henc : utf8EncodeChar c = [0xC0 + c.toNat / 64, 0x80 + c.toNat % 64] := by
          simp only [utf8EncodeChar]
          rw [if_neg h1, if_pos h2]
        have hshape : utf8Encode (c :: cs) =
            (0xC0 + c.toNat / 64) :: (0x80 + c.toNat % 64) :: utf8Encode cs := by
          simp [utf8Encode, henc]
        have hlen : (utf8Encode (c :: cs)).length + extra =
            ((utf8Encode cs).length + (1 + extra)) + 1 := by
          simp [hshape]
          omega
        rw [hlen, hshape]
        simp only [utf8DecodeGo]
        rw [if_neg (by omega)]
        rw [if_pos (by simp only [Bool.and_eq_true, decide_eq_true_eq]; omega)]
        rw [if_pos (by simp only [isCont, Bool.and_eq_true, decide_eq_true_eq]; omega)]
        rw [show (0xC0 + c.toNat / 64 - 0xC0) * 64 + (0x80 + c.toNat % 64 - 0x80) =
          c.toNat by omega, Char.ofNat_toNat]
        rw [ih (1 + extra)]
      · by_cases h3 : c.toNat < 0x10000
        · have henc : utf8EncodeChar c =
              [0xE0 + c.toNat / 4096, 0x80 + (c.toNat / 64) % 64, 0x80 + c.toNat % 64] := by
            simp only [utf8EncodeChar]
            rw [if_neg h1, if_neg h2, if_pos h3]
          have hshape : utf8Encode (c :: cs) = (0xE0 + c.toNat / 4096) ::
              (0x80 + (c.toNat / 64) % 64) :: (0x80 + c.toNat % 64) :: utf8Encode cs := by
            simp [utf8Encode, henc]
          have hlen : (utf8Encode (c :: cs)).length + extra =
              ((utf8Encode cs).length + (2 + extra)) + 1 := by
            simp [hshape]
            omega
          rw [hlen, hshape]
          simp only [utf8DecodeGo]
          rw [if_neg (by omega)]
          rw [if_neg (by simp only [Bool.and_eq_true, decide_eq_true_eq]; omega)]
          rw [if_pos (by simp only [Bool.and_eq_true, decide_eq_true_eq]; omega)]
          rw [if_pos (by
            simp only [cont1Lo, cont1Hi, Bool.and_eq_true, decide_eq_true_eq]
            constructor <;> (repeat' split) <;> omega)]
          rw [if_pos (by simp only [isCont, Bool.and_eq_true, decide_eq_true_eq]; omega)]
          rw [show (0xE0 + c.toNat / 4096 - 0xE0) * 4096 +
            (0x80 + (c.toNat / 64) % 64 - 0x80) * 64 + (0x80 + c.toNat % 64 - 0x80) =
            c.toNat by omega, Char.ofNat_toNat]
          rw [ih (2 + extra)]
        · have henc : utf8EncodeChar c = [0xF0 + c.toNat / 262144,
              0x80 + (c.toNat / 4096) % 64, 0x80 + (c.toNat / 64) % 64,
              0x80 + c.toNat % 64] := by
            simp only [utf8EncodeChar]
            rw [if_neg h1, if_neg h2, if_neg h3]
          have hshape : utf8Encode (c :: cs) = (0xF0 + c.toNat / 262144) ::
              (0x80 + (c.toNat / 4096) % 64) :: (0x80 + (c.toNat / 64) % 64) ::
              (0x80 + c.toNat % 64) :: utf8Encode cs := by
            simp [utf8Encode, henc]
          have hlen : (utf8Encode (c :: cs)).length + extra =
              ((utf8Encode cs).length + (3 + extra)) + 1 := by
            simp [hshape]
            omega
          rw [hlen, hshape]
          simp only [utf8DecodeGo]
          rw [if_neg (by omega)]
          rw [if_neg (by simp only [Bool.and_eq_true, decide_eq_true_eq]; omega)]
          rw [if_neg (by simp only [Bool.and_eq_true, decide_eq_true_eq]; omega)]
          rw [if_pos (by simp only [Bool.and_eq_true, decide_eq_true_eq]; omega)]
          rw [if_pos (by
            simp only [cont1Lo, cont1Hi, Bool.and_eq_true, decide_eq_true_eq]
            constructor <;> (repeat' split) <;> omega)]
          rw [if_pos (by simp only [isCont, Bool.and_eq_true, decide_eq_true_eq]; omega)]
          rw [if_pos (by simp only [isCont, Bool.and_eq_true, decide_eq_true_eq]; omega)]
          rw [show (0xF0 + c.toNat / 262144 - 0xF0) * 262144 +
            (0x80 + (c.toNat / 4096) % 64 - 0x80) * 4096 +
            (0x80 + (c.toNat / 64) % 64 - 0x80) * 64 + (0x80 + c.toNat % 64 - 0x80) =
            c.toNat by omega, Char.ofNat_toNat]
          rw [ih (3 + extra)]

/-- Round trip of the UTF-8 model. -/
theorem utf8DecodeReplace_encode (s : List Char) :
    utf8DecodeReplace (utf8Encode s) = s := by
  have h := utf8DecodeGo_encode s 0
  simpa [utf8DecodeReplace] using h

/-! Facts about quoting and unquoting. -/

/-- Characters are equal when their scalar values are. -/
theorem char_eq_of_toNat_eq (a b : Char) (h : a.toNat = b.toNat) : a = b :=
  Char.eq_of_val_eq (UInt32.ext h)

/-- Values below 0x80 are valid scalar values. -/
theorem isValidChar_of_lt_128 (n : Nat) (h : n < 0x80) : n.isValidChar :=
  Or.inl (by omega)

/-- toNat of Char.ofNat at a valid scalar value. -/
theorem char_toNat_ofNat (n : Nat) (h : n.isValidChar) : (Char.ofNat n).toNat = n := by
  simp only [Char.ofNat, h, dif_pos, Char.ofNatAux, Char.toNat]
  rfl

/-- Char.ofNat hitting a character whose value is nonzero forces the
argument to be that value. -/
theorem eq_toNat_of_char_ofNat_eq (b : Nat) (c : Char) (h : Char.ofNat b = c)
    (hc : c.toNat ≠ 0) : b = c.toNat := by
  by_cases hv : b.isValidChar
  · rw [← h, char_toNat_ofNat b hv]
  · exfalso
    apply hc
    rw [← h]
    simp only [Char.ofNat, hv, dif_neg]
    rfl

/-- Round trip of the hex-digit model. -/
theorem hexDigitVal_hexUpperDigit (h : Nat) (hlt : h < 16) :
    hexDigitVal (hexUpperDigit h) = some h := by
  have hfin : ∀ x : Fin 16, hexDigitVal (hexUpperDigit x.val) = some x.val := by decide
  exact hfin ⟨h, hlt⟩

/-- Unquoting a quoted byte stream appends the bytes to the pending
run: the core of the quote/unquote round trip. -/
theorem unquoteGo_quoteBytes (safe : List Nat)
    (hsafe : ∀ b, safe.contains b = true → b < 0x80)
    (hsafe25 : safe.contains 0x25 = false) :
    ∀ bs acc fuel, (∀ b ∈ bs, b < 0x100) → (quoteBytes safe bs).length ≤ fuel →
      unquoteGo fuel (quoteBytes safe bs) acc = utf8DecodeReplace (acc.reverse ++ bs) := by
  intro bs
  induction bs with
  | nil =>
    intro acc fuel _ _
    simp [quoteBytes, unquoteGo]
  | cons b bs ih =>
    intro acc fuel hbytes hfuel
    have hb : b < 0x100 := hbytes b (List.mem_cons_self b bs)
    by_cases hsb : (alwaysSafeByte b || safe.contains b) = true
    · have hq : quoteBytes safe (b :: bs) = Char.ofNat b :: quoteBytes safe bs := by
        simp only [quoteBytes, if_pos hsb]
      rw [hq] at hfuel ⊢
      cases fuel with
      | zero => simp at hfuel
      | succ f =>
        have hblt : b < 0x80 := by
          have hsb2 : alwaysSafeByte b = true ∨ safe.contains b = true := by
            simpa using hsb
          rcases hsb2 with h | h
          · simp only [alwaysSafeByte, Bool.or_eq_true, Bool.and_eq_true,
              decide_eq_true_eq] at h
            omega
          · exact hsafe b h
        have hval : (Char.ofNat b).toNat = b :=
          char_toNat_ofNat b (isValidChar_of_lt_128 b hblt)
        have hnp : ¬ (Char.ofNat b = '%') := by
          intro hc
          have hb37 : b = 37 := by
            have := eq_toNat_of_char_ofNat_eq b '%' hc (by decide)
            simpa using this
          subst hb37
          rw [show alwaysSafeByte 37 = false by decide, hsafe25] at hsb
          simp at hsb
        simp only [unquoteGo]
        rw [if_neg hnp, if_pos (by rw [hval]; exact hblt), hval]
        rw [ih (b :: acc) f (fun x hx => hbytes x (List.mem_cons_of_mem _ hx))
          (by simp only [List.length_cons] at hfuel; omega)]
        congr 1
        simp

    · have hq : quoteBytes safe (b :: bs) =
          '%' :: hexUpperDigit (b / 16) :: hexUpperDigit (b % 16) :: quoteBytes safe bs := by
        simp only [quoteBytes, if_neg hsb]
      rw [hq] at hfuel ⊢
      cases fuel with
      | zero => simp at hfuel
      | succ f =>
        simp only [unquoteGo, if_pos rfl]
        rw [hexDigitVal_hexUpperDigit (b / 16) (by omega),
          hexDigitVal_hexUpperDigit (b % 16) (by omega)]
        dsimp only
        rw [ih ((b / 16 * 16 + b % 16) :: acc) f
          (fun x hx => hbytes x (List.mem_cons_of_mem _ hx))
          (by simp only [List.length_cons] at hfuel; omega)]
        rw [show b / 16 * 16 + b % 16 = b by omega]
        simp

/-- Unquote of quote on strings. -/
theorem unquoteChars_quoteChars (safe : List Nat)
    (hsafe : ∀ b, safe.contains b = true → b < 0x80)
    (hsafe25 : safe.contains 0x25 = false) (s : List Char) :
    unquoteChars (quoteChars safe s) = s := by
  have h := unquoteGo_quoteBytes safe hsafe hsafe25 (utf8Encode s) []
    (quoteChars safe s).length (utf8Encode_lt_256 s) (by rfl)
  simp only [unquoteChars, quoteChars] at h ⊢
  rw [h]
  simp [utf8DecodeReplace_encode]

/-- Classification of the characters quote can emit. -/
theorem mem_quoteBytes (safe : List Nat) (bs : List Nat) (c : Char)
    (hbs : ∀ b ∈ bs, b < 0x100)
    (hc : c ∈ quoteBytes safe bs) :
    (∃ b, (alwaysSafeByte b || safe.contains b) = true ∧ c = Char.ofNat b) ∨
      c = '%' ∨ ∃ n, n < 16 ∧ c = hexUpperDigit n := by
  induction bs with
  | nil => simp [quoteBytes] at hc
  | cons b bs ih =>
    have hb : b < 0x100 := hbs b (List.mem_cons_self b bs)
    have hbs2 : ∀ x ∈ bs, x < 0x100 := fun x hx => hbs x (List.mem_cons_of_mem _ hx)
    simp only [quoteBytes] at hc
    by_cases hsb : (alwaysSafeByte b || safe.contains b) = true
    · rw [if_pos hsb] at hc
      rcases List.mem_cons.mp hc with h | h
      · exact Or.inl ⟨b, hsb, h⟩
      · exact ih hbs2 h
    · rw [if_neg hsb] at hc
      rcases List.mem_cons.mp hc with h | h
      · exact Or.inr (Or.inl h)
      · rcases List.mem_cons.mp h with h2 | h2
        · exact Or.inr (Or.inr ⟨b / 16, by omega, h2⟩)
        · rcases List.mem_cons.mp h2 with h3 | h3
          · exact Or.inr (Or.inr ⟨b % 16, by omega, h3⟩)
          · exact ih hbs2 h3

/-- A character outside the quote alphabet does not occur in quote
output; the side conditions are phrased on the scalar value so they can
be discharged by decide at each concrete character. -/
theorem not_mem_quoteBytes (safe : List Nat) (d : Char) (bs : List Nat)
    (hbs : ∀ b ∈ bs, b < 0x100)
    (h0 : d.toNat ≠ 0)
    (h1 : alwaysSafeByte d.toNat = false)
    (h2 : safe.contains d.toNat = false)
    (h3 : d ≠ '%')
    (h4 : ∀ n, n < 16 → hexUpperDigit n ≠ d) :
    d ∉ quoteBytes safe bs := by
  intro hmem
  rcases mem_quoteBytes safe bs d hbs hmem with ⟨b, hsb, hb⟩ | h | ⟨n, hn, hd⟩
  · have hbd : b = d.toNat := eq_toNat_of_char_ofNat_eq b d hb.symm h0
    rw [hbd, h1, h2] at hsb
    simp at hsb
  · exact h3 h
  · exact h4 n hn hd.symm

/-- A map that fixes every member is the identity. -/
theorem map_id_of_mem (l : List Char) (f : Char → Char) (h : ∀ c ∈ l, f c = c) :
    l.map f = l := by
  rw [List.map_congr_left h]
  exact List.map_id l

/-- The plus sign never occurs in raw quote output when byte 0x2B is
not among the safe bytes. -/
theorem plus_not_mem_quoteChars (safe : List Nat) (s : List Char)
    (hsafe2B : safe.contains 0x2B = false) : '+' ∉ quoteChars safe s :=
  not_mem_quoteBytes safe '+' (utf8Encode s) (utf8Encode_lt_256 s)
    (by decide) (by decide) hsafe2B (by decide)
    (by
      intro n hn
      have hfin : ∀ x : Fin 16, hexUpperDigit x.val ≠ '+' := by decide
      exact hfin ⟨n, hn⟩)

/-- Round trip of quote_plus and unquote_plus. -/
theorem unquotePlusChars_quotePlusChars (s : List Char) :
    unquotePlusChars (quotePlusChars s) = s := by
  by_cases hsp : s.contains ' ' = true
  · have hq : quotePlusChars s =
        (quoteChars [0x20] s).map fun c => if c = ' ' then '+' else c := by
      simp only [quotePlusChars, if_pos hsp]
    have hmapid : (quoteChars [0x20] s).map
        ((fun c => if c = '+' then ' ' else c) ∘ fun c => if c = ' ' then '+' else c) =
        quoteChars [0x20] s := by
      apply map_id_of_mem
      intro c hc
      by_cases hcs : c = ' '
      · simp [Function.comp, hcs]
      · have hcp : c ≠ '+' := by
          intro h
          exact plus_not_mem_quoteChars [0x20] s (by decide) (h ▸ hc)
        simp [Function.comp, hcs, hcp]
    rw [hq]
    simp only [unquotePlusChars, List.map_map]
    rw [hmapid]
    exact unquoteChars_quoteChars [0x20] (fun b hb => by simp at hb; omega) (by decide) s
  · have hq : quotePlusChars s = quoteChars [] s := by
      simp only [quotePlusChars]
      rw [if_neg hsp]
    have hmapid : (quoteChars [] s).map (fun c => if c = '+' then ' ' else c) =
        quoteChars [] s := by
      apply map_id_of_mem
      intro c hc
      have hcp : c ≠ '+' := by
        intro h
        exact plus_not_mem_quoteChars [] s (by decide) (h ▸ hc)
      simp [hcp]
    rw [hq]
    simp only [unquotePlusChars]
    rw [hmapid]
    exact unquoteChars_quoteChars [] (fun b hb => by simp at hb) (by decide) s

/-- A character outside the quote_plus alphabet (safe bytes, space/plus,
percent, upper hex) does not occur in quote_plus output. -/
theorem not_mem_quotePlusChars (d : Char) (s : List Char)
    (h0 : d.toNat ≠ 0)
    (h1 : alwaysSafeByte d.toNat = false)
    (h2 : d.toNat ≠ 0x20)
    (h2b : d ≠ '+')
    (h3 : d ≠ '%')
    (h4 : ∀ n, n < 16 → hexUpperDigit n ≠ d) :
    d ∉ quotePlusChars s := by
  simp only [quotePlusChars]
  split
  · intro hmem
    rcases List.mem_map.mp hmem with ⟨c, hc, hcd⟩
    by_cases hcs : c = ' '
    · rw [if_pos hcs] at hcd
      exact h2b hcd.symm
    · rw [if_neg hcs] at hcd
      subst hcd
      refine not_mem_quoteBytes [0x20] c (utf8Encode s) (utf8Encode_lt_256 s) h0 h1
        ?_ h3 h4 hc
      have hc32 : c.toNat ∉ [(0x20 : Nat)] := by simpa using h2
      simpa using hc32
  · intro hmem
    exact not_mem_quoteBytes [] d (utf8Encode s) (utf8Encode_lt_256 s) h0 h1 rfl h3 h4 hmem

/-- UTF-8 encoding of a nonempty string is nonempty. -/
theorem utf8Encode_ne_nil (c : Char) (cs : List Char) : utf8Encode (c :: cs) ≠ [] := by
  simp only [utf8Encode]
  intro h
  rcases List.append_eq_nil.mp h with ⟨h1, _⟩
  exact utf8EncodeChar_ne_nil c h1

/-- Quoting a nonempty byte stream yields a nonempty string. -/
theorem quoteBytes_ne_nil (safe : List Nat) (b : Nat) (bs : List Nat) :
    quoteBytes safe (b :: bs) ≠ [] := by
  simp only [quoteBytes]
  split <;> simp

/-- quote_plus of a nonempty string is nonempty. -/
theorem quotePlusChars_ne_nil (c : Char) (cs : List Char) :
    quotePlusChars (c :: cs) ≠ [] := by
  have henc : ∃ b bs, utf8Encode (c :: cs) = b :: bs := by
    cases h : utf8Encode (c :: cs) with
    | nil => exact absurd h (utf8Encode_ne_nil c cs)
    | cons b bs => exact ⟨b, bs, rfl⟩
  obtain ⟨b, bs, hb⟩ := henc
  simp only [quotePlusChars, quoteChars, hb]
  split
  · simp only [ne_eq, List.map_eq_nil_iff]
    exact quoteBytes_ne_nil [0x20] b bs
  · exact quoteBytes_ne_nil [] b bs

/-- Unquote output is nonempty when there is pending input or a pending
byte run. -/
theorem unquoteGo_ne_nil : ∀ fuel (s : List Char) (acc : List Nat),
    s ≠ [] ∨ acc ≠ [] → unquoteGo fuel s acc ≠ [] := by
  have hdec : ∀ (b : Nat) (t : List Nat), utf8DecodeReplace (b :: t) ≠ [] := by
    intro b t
    simp only [utf8DecodeReplace, List.length_cons]
    simp only [utf8DecodeGo]
    (repeat' split) <;> simp
  have hdecacc : ∀ (acc : List Nat), acc ≠ [] → utf8DecodeReplace acc.reverse ≠ [] := by
    intro acc hacc
    cases h : acc.reverse with
    | nil => exact absurd (by simpa using congrArg List.reverse h) hacc
    | cons b t => rw [h] at *; exact hdec b t
  intro fuel
  induction fuel with
  | zero =>
    intro s acc h
    cases s with
    | nil =>
      rcases h with h | h
      · exact absurd rfl h
      · exact hdecacc acc h
    | cons c rest =>
      simp only [unquoteGo]
      simp
  | succ f ih =>
    intro s acc h
    cases s with
    | nil =>
      rcases h with h | h
      · exact absurd rfl h
      · exact hdecacc acc h
    | cons c rest =>
      simp only [unquoteGo]
      split
      · split
        · split
          · exact ih _ _ (Or.inr (by simp))
          · exact ih _ _ (Or.inr (by simp))
        · exact ih _ _ (Or.inr (by simp))
      · split
        · exact ih _ _ (Or.inr (by simp))
        · simp

/-- unquote_plus of a nonempty string is nonempty. -/
theorem unquotePlusChars_ne_nil (s : List Char) (hs : s ≠ []) :
    unquotePlusChars s ≠ [] := by
  simp only [unquotePlusChars, unquoteChars]
  apply unquoteGo_ne_nil
  left
  simpa using hs

/-- str.split never returns an empty list of fields. -/
theorem splitOnChar_ne_nil (sep : Char) (l : List Char) : splitOnChar sep l ≠ [] := by
  cases l with
  | nil => simp [splitOnChar]
  | cons c rest =>
    simp only [splitOnChar]
    cases h : splitOnChar sep rest with
    | nil => simp
    | cons s ss =>
      dsimp only
      split <;> simp

/-- Splitting a separator-free string yields one field. -/
theorem splitOnChar_not_mem (sep : Char) (l : List Char) (h : sep ∉ l) :
    splitOnChar sep l = [l] := by
  induction l with
  | nil => rfl
  | cons c rest ih =>
    have hc : ¬ c = sep := fun hc => h (hc ▸ List.mem_cons_self c rest)
    have hrest : sep ∉ rest := fun hr => h (List.mem_cons_of_mem _ hr)
    simp only [splitOnChar, ih hrest]
    rw [if_neg hc]

/-- Splitting peels off a leading separator-free field. -/
theorem splitOnChar_append_cons (sep : Char) (l t : List Char) (h : sep ∉ l) :
    splitOnChar sep (l ++ sep :: t) = l :: splitOnChar sep t := by
  induction l with
  | nil =>
    simp only [List.nil_append, splitOnChar]
    cases hsplit : splitOnChar sep t with
    | nil => exact absurd hsplit (splitOnChar_ne_nil sep t)
    | cons s ss => simp
  | cons c l2 ih =>
    have hc : ¬ c = sep := fun hc => h (hc ▸ List.mem_cons_self c l2)
    have hl2 : sep ∉ l2 := fun hr => h (List.mem_cons_of_mem _ hr)
    rw [show (c :: l2) ++ sep :: t = c :: (l2 ++ sep :: t) from rfl]
    simp only [splitOnChar]
    rw [ih hl2]
    dsimp only
    rw [if_neg hc]

/-- split('=', 1) on a field assembled from an equals-free name. -/
theorem splitFirstEq_append (k v : List Char) (hk : '=' ∉ k) :
    splitFirstEq (k ++ '=' :: v) = some (k, v) := by
  have htake : (k ++ '=' :: v).takeWhile (fun c => c != '=') = k := by
    induction k with
    | nil => simp [List.takeWhile]
    | cons c k2 ih =>
      have hc : (c != '=') = true := by
        simp only [bne_iff_ne, ne_eq]
        intro hcc
        exact hk (hcc ▸ List.mem_cons_self c k2)
      have hk2 : '=' ∉ k2 := fun hr => hk (List.mem_cons_of_mem _ hr)
      simp only [List.cons_append, List.takeWhile, hc]
      exact congrArg (c :: ·) (ih hk2)
  have hlen : k.length < (k ++ '=' :: v).length := by
    simp only [List.length_append, List.length_cons]
    omega
  have hdrop : (k ++ '=' :: v).drop (k.length + 1) = v := by
    rw [show k ++ '=' :: v = (k ++ ['=']) ++ v by simp]
    rw [show k.length + 1 = (k ++ ['=']).length by simp]
    exact List.drop_left _ _
  simp only [splitFirstEq, htake]
  rw [if_pos hlen, hdrop]

/-- Helper turning a decide over Fin 16 into the hex-digit side
condition of the not-mem lemmas. -/
theorem hexUpper_ne_of_fin (d : Char) (hd : ∀ x : Fin 16, hexUpperDigit x.val ≠ d) :
    ∀ n, n < 16 → hexUpperDigit n ≠ d :=
  fun n hn => hd ⟨n, hn⟩

/-- The field separator never occurs in quote_plus output. -/
theorem amp_not_mem_quotePlusChars (s : List Char) : '&' ∉ quotePlusChars s :=
  not_mem_quotePlusChars '&' s (by decide) (by decide) (by decide) (by decide) (by decide)
    (hexUpper_ne_of_fin '&' (by decide))

/-- The pair separator never occurs in quote_plus output. -/
theorem eqsign_not_mem_quotePlusChars (s : List Char) : '=' ∉ quotePlusChars s :=
  not_mem_quotePlusChars '=' s (by decide) (by decide) (by decide) (by decide) (by decide)
    (hexUpper_ne_of_fin '=' (by decide))

/-- The fragment marker never occurs in quote_plus output. -/
theorem hash_not_mem_quotePlusChars (s : List Char) : '#' ∉ quotePlusChars s :=
  not_mem_quotePlusChars '#' s (by decide) (by decide) (by decide) (by decide) (by decide)
    (hexUpper_ne_of_fin '#' (by decide))

/-- The query marker never occurs in quote_plus output. -/
theorem qmark_not_mem_quotePlusChars (s : List Char) : '?' ∉ quotePlusChars s :=
  not_mem_quotePlusChars '?' s (by decide) (by decide) (by decide) (by decide) (by decide)
    (hexUpper_ne_of_fin '?' (by decide))

/-- The field separator never occurs inside an encoded key=value
field. -/
theorem amp_not_mem_field (k v : List Char) :
    '&' ∉ quotePlusChars k ++ '=' :: quotePlusChars v := by
  intro h
  rcases List.mem_append.mp h with h | h
  · exact amp_not_mem_quotePlusChars k h
  · rcases List.mem_cons.mp h with h | h
    · exact absurd h (by decide)
    · exact amp_not_mem_quotePlusChars v h

/-- parse_qsl decodes an encoded field back to its pair. -/
theorem parseQslStep_field (k v : List Char) (hv : v ≠ [])
    (acc : List (List Char × List Char)) :
    parseQslStep (quotePlusChars k ++ '=' :: quotePlusChars v) acc = (k, v) :: acc := by
  have hqv : quotePlusChars v ≠ [] := by
    cases v with
    | nil => exact absurd rfl hv
    | cons c cs => exact quotePlusChars_ne_nil c cs
  have hne : ¬ ((quotePlusChars k ++ '=' :: quotePlusChars v).isEmpty = true) := by
    simp
  simp only [parseQslStep]
  rw [if_neg hne]
  rw [splitFirstEq_append _ _ (eqsign_not_mem_quotePlusChars k)]
  dsimp only
  rw [if_neg (by simpa using hqv)]
  rw [unquotePlusChars_quotePlusChars k, unquotePlusChars_quotePlusChars v]

/-- parse_qsl inverts the field encoding of urlencode. -/
theorem parseQsl_joinAmp (pairs : List (List Char × List Char))
    (hv : ∀ p ∈ pairs, p.2 ≠ []) :
    parseQsl (joinAmp (pairs.map fun p =>
      quotePlusChars p.1 ++ '=' :: quotePlusChars p.2)) = pairs := by
  induction pairs with
  | nil => rfl
  | cons p rest ih =>
    obtain ⟨k, v⟩ := p
    have hvkv : v ≠ [] := hv (k, v) (List.mem_cons_self _ _)
    have hvrest : ∀ q ∈ rest, q.2 ≠ [] := fun q hq => hv q (List.mem_cons_of_mem _ hq)
    cases rest with
    | nil =>
      simp only [List.map_cons, List.map_nil, joinAmp, parseQsl]
      rw [splitOnChar_not_mem '&' _ (amp_not_mem_field k v)]
      simp only [List.foldr_cons, List.foldr_nil]
      exact parseQslStep_field k v hvkv []
    | cons q rest2 =>
      have hjoin : joinAmp (((k, v) :: q :: rest2).map fun p =>
          quotePlusChars p.1 ++ '=' :: quotePlusChars p.2) =
          (quotePlusChars k ++ '=' :: quotePlusChars v) ++ '&' ::
          joinAmp ((q :: rest2).map fun p =>
            quotePlusChars p.1 ++ '=' :: quotePlusChars p.2) := by
        simp only [List.map_cons, joinAmp]
      rw [hjoin]
      simp only [parseQsl]
      rw [splitOnChar_append_cons '&' _ _ (amp_not_mem_field k v)]
      simp only [List.foldr_cons]
      have hres := ih hvrest
      simp only [parseQsl] at hres
      rw [hres]
      exact parseQslStep_field k v hvkv _

/-- Appending a fresh key puts it at the end of the dict. -/
theorem dictAppend_of_not_mem (d : List (List Char × List (List Char)))
    (k : List Char) (v : List Char) (h : k ∉ d.map Prod.fst) :
    dictAppend d k v = d ++ [(k, [v])] := by
  induction d with
  | nil => rfl
  | cons kv rest ih =>
    obtain ⟨k0, vs0⟩ := kv
    simp only [List.map_cons, List.mem_cons] at h
    push_neg at h
    simp only [dictAppend]
    rw [if_neg (fun he => h.1 he.symm)]
    rw [ih h.2]
    simp

/-- Appending to the key sitting at the end of the dict extends its
value list. -/
theorem dictAppend_append_last (d : List (List Char × List (List Char)))
    (k : List Char) (vs : List (List Char)) (v : List Char)
    (h : k ∉ d.map Prod.fst) :
    dictAppend (d ++ [(k, vs)]) k v = d ++ [(k, vs ++ [v])] := by
  induction d with
  | nil => simp [dictAppend]
  | cons kv rest ih =>
    obtain ⟨k0, vs0⟩ := kv
    simp only [List.map_cons, List.mem_cons] at h
    push_neg at h
    simp only [List.cons_append, dictAppend]
    rw [if_neg (fun he => h.1 he.symm)]
    exact congrArg ((k0, vs0) :: ·) (ih h.2)

/-- Folding the values of one key into a dict ending with that key
collects them in order. -/
theorem foldl_dictAppend_group (k : List Char) (vs : List (List Char)) :
    ∀ (vs0 : List (List Char)) (acc : List (List Char × List (List Char))),
      k ∉ acc.map Prod.fst →
      List.foldl (fun d kv => dictAppend d kv.1 kv.2) (acc ++ [(k, vs0)])
        (vs.map fun v => (k, v)) = acc ++ [(k, vs0 ++ vs)] := by
  induction vs with
  | nil =>
    intro vs0 acc _
    simp
  | cons v vs2 ih =>
    intro vs0 acc h
    simp only [List.map_cons, List.foldl_cons]
    rw [dictAppend_append_last acc k vs0 v h]
    rw [ih (vs0 ++ [v]) acc h]
    simp

/-- Folding grouped pairs over disjoint keys rebuilds the dict. -/
theorem foldl_dictAppend_flat (d : List (List Char × List (List Char))) :
    ∀ acc, ((acc ++ d).map Prod.fst).Nodup → (∀ kv ∈ d, kv.2 ≠ []) →
      List.foldl (fun d2 kv => dictAppend d2 kv.1 kv.2) acc
        (d.flatMap fun kv => kv.2.map fun v => (kv.1, v)) = acc ++ d := by
  induction d with
  | nil =>
    intro acc _ _
    simp
  | cons kv rest ih =>
    obtain ⟨k, vs⟩ := kv
    intro acc hnodup hvals
    have hknotin : k ∉ acc.map Prod.fst := by
      have h2 := hnodup
      rw [List.map_append, List.map_cons] at h2
      have h3 := List.nodup_middle.mp h2
      have h4 := (List.nodup_cons.mp h3).1
      intro hk
      exact h4 (List.mem_append.mpr (Or.inl hk))
    obtain ⟨v, vs2, rfl⟩ : ∃ v vs2, vs = v :: vs2 := by
      cases vs with
      | nil => exact absurd rfl (hvals (k, []) (List.mem_cons_self _ _))
      | cons v vs2 => exact ⟨v, vs2, rfl⟩
    simp only [List.flatMap_cons]
    rw [List.foldl_append]
    have hgroup : List.foldl (fun d2 kv => dictAppend d2 kv.1 kv.2) acc
        ((v :: vs2).map fun x => (k, x)) = acc ++ [(k, v :: vs2)] := by
      simp only [List.map_cons, List.foldl_cons]
      rw [dictAppend_of_not_mem acc k v hknotin]
      have hg := foldl_dictAppend_group k vs2 [v] acc hknotin
      rw [hg]
      simp
    rw [hgroup]
    have hassoc : acc ++ [(k, v :: vs2)] ++ rest = acc ++ (k, v :: vs2) :: rest := by
      simp
    rw [ih (acc ++ [(k, v :: vs2)]) (by rw [hassoc]; exact hnodup)
      (fun x hx => hvals x (List.mem_cons_of_mem _ hx))]
    rw [hassoc]

/-- Well-formedness of a parsed query dict: keys pairwise distinct,
every value list nonempty and every value a nonempty string. -/
def QsWF (d : List (List Char × List (List Char))) : Prop :=
  (d.map Prod.fst).Nodup ∧ ∀ kv ∈ d, kv.2 ≠ [] ∧ ∀ v ∈ kv.2, v ≠ []

/-- parse_qs inverts urlencode on well-formed dicts. -/
theorem parseQs_urlencodeDoseq (d : List (List Char × List (List Char)))
    (h : QsWF d) : parseQs (urlencodeDoseq d) = d := by
  have hpairs : ∀ p ∈ (d.flatMap fun kv => kv.2.map fun v => (kv.1, v)), p.2 ≠ [] := by
    intro p hp
    rcases List.mem_flatMap.mp hp with ⟨kv, hkv, hpin⟩
    rcases List.mem_map.mp hpin with ⟨v, hvin, rfl⟩
    exact (h.2 kv hkv).2 v hvin
  have hshape : urlencodeDoseq d = joinAmp
      (((d.flatMap fun kv => kv.2.map fun v => (kv.1, v))).map fun p =>
        quotePlusChars p.1 ++ '=' :: quotePlusChars p.2) := by
    simp only [urlencodeDoseq, List.map_flatMap, List.map_map]
    rfl
  simp only [parseQs, hshape]
  rw [parseQsl_joinAmp _ hpairs]
  have hflat := foldl_dictAppend_flat d [] (by simpa using h.1) (fun kv hkv => (h.2 kv hkv).1)
  simpa using hflat

/-- Values produced by parse_qsl are nonempty strings. -/
theorem parseQsl_values (qs : List Char) : ∀ kv ∈ parseQsl qs, kv.2 ≠ [] := by
  suffices h : ∀ segs kv, kv ∈ List.foldr parseQslStep [] segs → kv.2 ≠ [] by
    intro kv hkv
    exact h (splitOnChar '&' qs) kv hkv
  intro segs
  induction segs with
  | nil => simp
  | cons seg rest ih =>
    intro kv hkv
    simp only [List.foldr_cons, parseQslStep] at hkv
    split at hkv
    · exact ih kv hkv
    · split at hkv
      · exact ih kv hkv
      · rename_i n v heq
        split at hkv
        · exact ih kv hkv
        · rcases List.mem_cons.mp hkv with h | h
          · rename_i hvne
            subst h
            simp only
            apply unquotePlusChars_ne_nil
            simpa using hvne
          · exact ih kv h

/-- Keys after a dict append are the old keys plus possibly the new
key. -/
theorem mem_keys_dictAppend (d : List (List Char × List (List Char)))
    (k : List Char) (v : List Char) (x : List Char) :
    x ∈ (dictAppend d k v).map Prod.fst ↔ x ∈ d.map Prod.fst ∨ x = k := by
  induction d with
  | nil => simp [dictAppend]
  | cons kv rest ih =>
    obtain ⟨k0, vs0⟩ := kv
    simp only [dictAppend]
    by_cases hk : k0 = k
    · rw [if_pos hk]
      subst hk
      simp only [List.map_cons, List.mem_cons]
      tauto
    · rw [if_neg hk]
      simp only [List.map_cons, List.mem_cons, ih]
      tauto

/-- A dict append preserves well-formedness. -/
theorem QsWF_dictAppend (d : List (List Char × List (List Char)))
    (k : List Char) (v : List Char) (h : QsWF d) (hv : v ≠ []) :
    QsWF (dictAppend d k v) := by
  induction d with
  | nil =>
    refine ⟨by simp [dictAppend], ?_⟩
    intro kv hkv
    simp only [dictAppend, List.mem_singleton] at hkv
    subst hkv
    exact ⟨by simp, by simpa using hv⟩
  | cons kv0 rest ih =>
    obtain ⟨k0, vs0⟩ := kv0
    obtain ⟨hnodup, hvals⟩ := h
    simp only [List.map_cons, List.nodup_cons] at hnodup
    have hrestWF : QsWF rest := ⟨hnodup.2, fun x hx => hvals x (List.mem_cons_of_mem _ hx)⟩
    have hhead := hvals (k0, vs0) (List.mem_cons_self _ _)
    simp only [dictAppend]
    by_cases hk : k0 = k
    · rw [if_pos hk]
      refine ⟨?_, ?_⟩
      · simp only [List.map_cons, List.nodup_cons]
        exact ⟨hnodup.1, hnodup.2⟩
      · intro kv hkv
        rcases List.mem_cons.mp hkv with h | h
        · subst h
          refine ⟨by simp, ?_⟩
          intro x hx
          rcases List.mem_append.mp hx with h | h
          · exact hhead.2 x h
          · rw [List.mem_singleton.mp h]
            exact hv
        · exact hvals kv (List.mem_cons_of_mem _ h)
    · rw [if_neg hk]
      obtain ⟨ihnodup, ihvals⟩ := ih hrestWF
      refine ⟨?_, ?_⟩
      · simp only [List.map_cons, List.nodup_cons]
        refine ⟨?_, ihnodup⟩
        intro hmem
        rcases (mem_keys_dictAppend rest k v k0).mp hmem with h | h
        · exact hnodup.1 h
        · exact hk h
      · intro kv hkv
        rcases List.mem_cons.mp hkv with h | h
        · subst h
          exact hhead
        · exact ihvals kv h

/-- parse_qs output is well-formed. -/
theorem QsWF_parseQs (qs : List Char) : QsWF (parseQs qs) := by
  have hvals := parseQsl_values qs
  suffices h : ∀ (l : List (List Char × List Char)) acc, QsWF acc →
      (∀ kv ∈ l, kv.2 ≠ []) →
      QsWF (List.foldl (fun d kv => dictAppend d kv.1 kv.2) acc l) from
    h (parseQsl qs) [] ⟨by simp, by simp⟩ hvals
  intro l
  induction l with
  | nil =>
    intro acc h _
    simpa using h
  | cons kv rest ih =>
    intro acc hacc hl
    simp only [List.foldl_cons]
    exact ih _ (QsWF_dictAppend acc kv.1 kv.2 hacc (hl kv (List.mem_cons_self _ _)))
      (fun x hx => hl x (List.mem_cons_of_mem _ hx))

/-- Filtering preserves well-formedness. -/
theorem QsWF_filter (d : List (List Char × List (List Char)))
    (p : List Char × List (List Char) → Bool) (h : QsWF d) : QsWF (d.filter p) := by
  refine ⟨?_, ?_⟩
  · exact h.1.sublist ((List.filter_sublist d).map Prod.fst)
  · intro kv hkv
    exact h.2 kv (List.mem_of_mem_filter hkv)

/-- The query rewrite of normalize_url reparses to exactly the original
parsed query minus the tracking keys. -/
theorem parseQs_cleanQueryStr (q : List Char) :
    parseQs (cleanQueryStr q) =
      (parseQs q).filter fun kv => decide (kv.1 ∉ trackingParams) := by
  simp only [cleanQueryStr]
  by_cases hemp :
      ((parseQs q).filter fun kv => decide (kv.1 ∉ trackingParams)).isEmpty = true
  · rw [if_pos hemp]
    have hnil : ((parseQs q).filter fun kv => decide (kv.1 ∉ trackingParams)) = [] := by
      simpa using hemp
    rw [hnil]
    rfl
  · rw [if_neg hemp]
    exact parseQs_urlencodeDoseq _ (QsWF_filter _ _ (QsWF_parseQs q))

/-! Generic helpers about takeWhile, drop and the URL splitters. -/

/-- takeWhile stops exactly at the first failing element. -/
theorem takeWhile_append_stop (p : Char → Bool) (a : List Char) (x : Char) (b : List Char)
    (ha : ∀ c ∈ a, p c = true) (hx : p x = false) :
    (a ++ x :: b).takeWhile p = a := by
  rw [List.takeWhile_append_of_pos ha]
  rw [List.takeWhile_cons, hx]
  simp

/-- Dropping one past a prefix peels the separator off. -/
theorem drop_append_cons (a : List Char) (x : Char) (b : List Char) :
    (a ++ x :: b).drop (a.length + 1) = b := by
  rw [show a ++ x :: b = (a ++ [x]) ++ b by simp]
  rw [show a.length + 1 = (a ++ [x]).length by simp]
  exact List.drop_left _ _

/-- A takeWhile of full length is the whole list. -/
theorem takeWhile_eq_self_of_length (p : Char → Bool) (u : List Char)
    (h : ¬ (u.takeWhile p).length < u.length) : u.takeWhile p = u :=
  (List.takeWhile_sublist p).eq_of_length (by
    have := (List.takeWhile_sublist (l := u) p).length_le
    omega)

/-- Dropping the takeWhile prefix is dropWhile. -/
theorem drop_length_takeWhile (p : Char → Bool) (l : List Char) :
    l.drop (l.takeWhile p).length = l.dropWhile p := by
  induction l with
  | nil => rfl
  | cons c t ih =>
    rw [List.takeWhile_cons, List.dropWhile_cons]
    by_cases hc : p c = true
    · rw [if_pos hc, if_pos hc]
      simpa using ih
    · rw [if_neg hc, if_neg hc]
      simp

/-- dropWhile output is empty or starts with a failing character. -/
theorem dropWhile_head_fails (p : Char → Bool) (l : List Char) :
    l.dropWhile p = [] ∨ ∃ c t, l.dropWhile p = c :: t ∧ p c = false := by
  induction l with
  | nil => exact Or.inl rfl
  | cons c t ih =>
    rw [List.dropWhile_cons]
    by_cases hc : p c = true
    · rw [if_pos hc]
      exact ih
    · rw [if_neg hc]
      exact Or.inr ⟨c, t, rfl, by simpa using hc⟩

/-- splitHash on a string without '#' does not split. -/
theorem splitHash_of_not_mem (u : List Char) (h : '#' ∉ u) : splitHash u = (u, []) := by
  have htake : u.takeWhile (fun c => c != '#') = u := by
    rw [List.takeWhile_eq_self_iff]
    intro x hx
    simp only [bne_iff_ne, ne_eq, decide_eq_true_eq]
    intro hx2
    exact h (hx2 ▸ hx)
  simp only [splitHash, htake]
  rw [if_neg (by omega)]

/-- splitQmark on a string without '?' does not split. -/
theorem splitQmark_of_not_mem (u : List Char) (h : '?' ∉ u) : splitQmark u = (u, []) := by
  have htake : u.takeWhile (fun c => c != '?') = u := by
    rw [List.takeWhile_eq_self_iff]
    intro x hx
    simp only [bne_iff_ne, ne_eq, decide_eq_true_eq]
    intro hx2
    exact h (hx2 ▸ hx)
  simp only [splitQmark, htake]
  rw [if_neg (by omega)]

/-- splitQmark cuts at the first '?'. -/
theorem splitQmark_append (a b : List Char) (h : '?' ∉ a) :
    splitQmark (a ++ '?' :: b) = (a, b) := by
  have htake : (a ++ '?' :: b).takeWhile (fun c => c != '?') = a := by
    refine takeWhile_append_stop _ a '?' b ?_ (by simp)
    intro c hc
    simp only [bne_iff_ne, ne_eq, decide_eq_true_eq]
    intro hc2
    exact h (hc2 ▸ hc)
  have hlen : a.length < (a ++ '?' :: b).length := by
    simp only [List.length_append, List.length_cons]
    omega
  simp only [splitQmark, htake]
  rw [if_pos hlen, drop_append_cons]

/-- The head part of splitHash never contains '#'. -/
theorem hash_not_mem_splitHash_fst (u : List Char) : '#' ∉ (splitHash u).1 := by
  simp only [splitHash]
  split
  · intro h
    have := List.mem_takeWhile_imp h
    simp at this
  · intro h
    have heq := takeWhile_eq_self_of_length (fun c => c != '#') u (by assumption)
    have := List.mem_takeWhile_imp (heq ▸ h)
    simp at this

/-- The head part of splitQmark never contains '?'. -/
theorem qmark_not_mem_splitQmark_fst (u : List Char) : '?' ∉ (splitQmark u).1 := by
  simp only [splitQmark]
  split
  · intro h
    have := List.mem_takeWhile_imp h
    simp at this
  · intro h
    have heq := takeWhile_eq_self_of_length (fun c => c != '?') u (by assumption)
    have := List.mem_takeWhile_imp (heq ▸ h)
    simp at this

/-- Members of the head part of splitHash come from the input. -/
theorem mem_of_mem_splitHash_fst (u : List Char) (c : Char) (h : c ∈ (splitHash u).1) :
    c ∈ u := by
  simp only [splitHash] at h
  split at h
  · exact (List.takeWhile_sublist _).mem h
  · exact h

/-- Members of both parts of splitQmark come from the input. -/
theorem mem_of_mem_splitQmark_fst (u : List Char) (c : Char) (h : c ∈ (splitQmark u).1) :
    c ∈ u := by
  simp only [splitQmark] at h
  split at h
  · exact (List.takeWhile_sublist _).mem h
  · exact h

/-- Members of the head part of splitHash survive splitQmark. -/
theorem mem_of_mem_splitQmark_splitHash (u : List Char) (c : Char)
    (h : c ∈ (splitQmark (splitHash u).1).1) : c ∈ u :=
  mem_of_mem_splitHash_fst u c (mem_of_mem_splitQmark_fst _ c h)

/-! Character-class facts used by the scheme parser. -/

/-- Character equality is scalar-value equality. -/
theorem char_eq_iff_toNat (c d : Char) : c = d ↔ c.toNat = d.toNat :=
  ⟨congrArg Char.toNat, char_eq_of_toNat_eq c d⟩

/-- ASCII-letter test in terms of the scalar value. -/
theorem isAlpha_toNat (c : Char) :
    c.isAlpha = true ↔ (65 ≤ c.toNat ∧ c.toNat ≤ 90) ∨ (97 ≤ c.toNat ∧ c.toNat ≤ 122) := by
  constructor
  · intro h
    simp only [Char.isAlpha, Char.isUpper, Char.isLower, Bool.or_eq_true,
      Bool.and_eq_true, decide_eq_true_eq] at h
    rcases h with ⟨h1, h2⟩ | ⟨h1, h2⟩
    · exact Or.inl ⟨h1, h2⟩
    · exact Or.inr ⟨h1, h2⟩
  · intro h
    simp only [Char.isAlpha, Char.isUpper, Char.isLower, Bool.or_eq_true,
      Bool.and_eq_true, decide_eq_true_eq]
    rcases h with ⟨h1, h2⟩ | ⟨h1, h2⟩
    · exact Or.inl ⟨h1, h2⟩
    · exact Or.inr ⟨h1, h2⟩

/-- Scheme-character test in terms of the scalar value. -/
theorem isSchemeChar_toNat (c : Char) :
    isSchemeChar c = true ↔
      (65 ≤ c.toNat ∧ c.toNat ≤ 90) ∨ (97 ≤ c.toNat ∧ c.toNat ≤ 122) ∨
      (48 ≤ c.toNat ∧ c.toNat ≤ 57) ∨ c.toNat = 43 ∨ c.toNat = 45 ∨ c.toNat = 46 := by
  have hplus : ('+' : Char).toNat = 43 := rfl
  have hminus : ('-' : Char).toNat = 45 := rfl
  have hdot : ('.' : Char).toNat = 46 := rfl
  have hdig : c.isDigit = true ↔ 48 ≤ c.toNat ∧ c.toNat ≤ 57 := by
    constructor
    · intro h
      simp [Char.isDigit] at h
      exact ⟨h.1, h.2⟩
    · intro h
      simp [Char.isDigit]
      exact ⟨h.1, h.2⟩
  simp only [isSchemeChar, Bool.or_eq_true, isAlpha_toNat, hdig, decide_eq_true_eq,
    char_eq_iff_toNat, hplus, hminus, hdot]
  omega

/-- Scalar value of Char.toLower. -/
theorem toLower_toNat (c : Char) :
    (c.toLower).toNat = if 65 ≤ c.toNat ∧ c.toNat ≤ 90 then c.toNat + 32 else c.toNat := by
  have hlow : Char.toLower c =
      if 65 ≤ c.toNat ∧ c.toNat ≤ 90 then Char.ofNat (c.toNat + 32) else c := by
    simp [Char.toLower]
  rw [hlow]
  split
  · rename_i h
    rw [char_toNat_ofNat _ (isValidChar_of_lt_128 _ (by omega))]
  · rfl

/-- toLower is idempotent. -/
theorem toLower_toLower (c : Char) : (c.toLower).toLower = c.toLower := by
  apply char_eq_of_toNat_eq
  rw [toLower_toNat, toLower_toNat c]
  split
  · rename_i h
    rw [if_neg (by omega)]
  · rfl

/-- toLower preserves ASCII letters. -/
theorem toLower_isAlpha (c : Char) (h : c.isAlpha = true) : (c.toLower).isAlpha = true := by
  rw [isAlpha_toNat] at h ⊢
  rw [toLower_toNat]
  split <;> omega

/-- toLower preserves scheme characters. -/
theorem toLower_isSchemeChar (c : Char) (h : isSchemeChar c = true) :
    isSchemeChar c.toLower = true := by
  rw [isSchemeChar_toNat] at h ⊢
  rw [toLower_toNat]
  split <;> omega

/-- A scheme character is printable and is not a colon. -/
theorem isSchemeChar_facts (c : Char) (h : isSchemeChar c = true) :
    0x20 < c.toNat ∧ c.toNat ≠ 0x3A ∧ c.toNat ≠ 0x09 ∧ c.toNat ≠ 0x0D ∧ c.toNat ≠ 0x0A := by
  rw [isSchemeChar_toNat] at h
  omega

/-- An ASCII letter is a scheme character. -/
theorem isAlpha_isSchemeChar (c : Char) (h : c.isAlpha = true) : isSchemeChar c = true := by
  rw [isAlpha_toNat] at h
  rw [isSchemeChar_toNat]
  omega

/-! Facts about the scheme splitter. -/

/-- The scheme a parse extracts is empty or a lowercased validated
scheme. -/
theorem splitScheme_fst_cases (u : List Char) :
    (splitScheme u).1 = [] ∨
    ∃ c cs, (splitScheme u).1 = (c :: cs).map Char.toLower ∧ c.isAlpha = true ∧
      cs.all isSchemeChar = true := by
  simp only [splitScheme]
  cases htake : u.takeWhile (fun c => c != ':') with
  | nil => exact Or.inl rfl
  | cons c cs =>
    dsimp only
    by_cases hcond : (c.isAlpha && cs.all isSchemeChar &&
        decide ((c :: cs).length < u.length)) = true
    · rw [if_pos hcond]
      simp only [Bool.and_eq_true] at hcond
      exact Or.inr ⟨c, cs, rfl, hcond.1.1, hcond.1.2⟩
    · rw [if_neg hcond]
      exact Or.inl rfl

/-- The remainder returned by the scheme splitter comes from the
input. -/
theorem mem_of_mem_splitScheme_snd (u : List Char) (c : Char)
    (h : c ∈ (splitScheme u).2) : c ∈ u := by
  simp only [splitScheme] at h
  cases htake : u.takeWhile (fun x => x != ':') with
  | nil =>
    rw [htake] at h
    exact h
  | cons c0 cs =>
    rw [htake] at h
    dsimp only at h
    split at h
    · exact (List.drop_sublist _ _).mem h
    · exact h

/-- A validated, already-lowercase scheme has a head letter, scheme
tail, is toLower-stable and contains only printable non-colon
characters. -/
theorem schemeOK_shape (sch : List Char)
    (h : ∃ c cs, sch = (c :: cs).map Char.toLower ∧ c.isAlpha = true ∧
      cs.all isSchemeChar = true) :
    ∃ c2 cs2, sch = c2 :: cs2 ∧ c2.isAlpha = true ∧ cs2.all isSchemeChar = true ∧
      sch.map Char.toLower = sch ∧
      (∀ x ∈ sch, 0x20 < x.toNat ∧ x.toNat ≠ 0x3A ∧ x.toNat ≠ 9 ∧ x.toNat ≠ 13 ∧
        x.toNat ≠ 10) := by
  obtain ⟨c, cs, rfl, hca, hcs⟩ := h
  have hmem_scheme : ∀ x ∈ (c :: cs).map Char.toLower, isSchemeChar x = true := by
    intro x hx
    rcases List.mem_map.mp hx with ⟨y, hy, rfl⟩
    rcases List.mem_cons.mp hy with hyc | hyc
    · subst hyc
      exact toLower_isSchemeChar y (isAlpha_isSchemeChar y hca)
    · exact toLower_isSchemeChar y (by
        have := List.all_eq_true.mp hcs
        exact this y hyc)
  refine ⟨c.toLower, cs.map Char.toLower, by simp, toLower_isAlpha c hca, ?_, ?_, ?_⟩
  · rw [List.all_eq_true]
    intro x hx
    exact hmem_scheme x (by
      simp only [List.map_cons, List.mem_cons]
      exact Or.inr hx)
  · rw [List.map_map]
    apply List.map_congr_left
    intro x _
    exact toLower_toLower x
  · intro x hx
    exact isSchemeChar_facts x (hmem_scheme x hx)

/-- Reparsing a rebuilt scheme://rest prefix recovers the scheme. -/
theorem splitScheme_rebuilt (sch rest2 : List Char)
    (h : ∃ c cs, sch = c :: cs ∧ c.isAlpha = true ∧ cs.all isSchemeChar = true ∧
      sch.map Char.toLower = sch) :
    splitScheme (sch ++ ':' :: rest2) = (sch, rest2) := by
  obtain ⟨c, cs, rfl, hca, hcs, hlow⟩ := h
  have hpass : ∀ x ∈ c :: cs, (x != ':') = true := by
    intro x hx
    simp only [bne_iff_ne, ne_eq]
    have hsc : isSchemeChar x = true := by
      rcases List.mem_cons.mp hx with hxc | hxc
      · subst hxc
        exact isAlpha_isSchemeChar x hca
      · exact (List.all_eq_true.mp hcs) x hxc
    intro hcol
    have := (isSchemeChar_facts x hsc).2.1
    rw [hcol] at this
    exact this rfl
  have htake : ((c :: cs) ++ ':' :: rest2).takeWhile (fun x => x != ':') = c :: cs :=
    takeWhile_append_stop _ _ ':' _ hpass (by simp)
  simp only [splitScheme, htake]
  rw [if_pos (by
    simp only [Bool.and_eq_true, decide_eq_true_eq]
    refine ⟨⟨hca, hcs⟩, ?_⟩
    simp only [List.length_append, List.length_cons]
    omega)]
  rw [hlow, drop_append_cons]

/-! Facts about the netloc splitter. -/

/-- A successful netloc parse with nonempty netloc gives a bracket-safe
netloc free of '/', '?' and '#', both outputs coming from the input. -/
theorem splitNetlocE_ok_facts (u nl rest : List Char)
    (h : splitNetlocE u = Except.ok (nl, rest)) (hne : nl ≠ []) :
    (∀ c ∈ nl, (!(c = '/' || c = '?' || c = '#')) = true) ∧
    ((nl.contains '[' && !nl.contains ']') ||
      (nl.contains ']' && !nl.contains '[')) = false ∧
    (∀ c ∈ nl, c ∈ u) ∧ (∀ c ∈ rest, c ∈ u) ∧
    (rest = [] ∨ ∃ c t, rest = c :: t ∧ (c = '/' ∨ c = '?' ∨ c = '#')) := by
  cases u with
  | nil =>
    simp only [splitNetlocE] at h
    cases h
    exact absurd rfl hne
  | cons c1 u1 =>
    cases u1 with
    | nil =>
      simp only [splitNetlocE] at h
      cases h
      exact absurd rfl hne
    | cons c2 rest0 =>
      simp only [splitNetlocE] at h
      split at h
      · rename_i hslash
        split at h
        · cases h
        · rename_i hbr
          cases h
          refine ⟨?_, by simpa using hbr, ?_, ?_, ?_⟩
          · intro c hc
            simpa using List.mem_takeWhile_imp hc
          · intro c hc
            have := (List.takeWhile_sublist _).mem hc
            exact List.mem_cons_of_mem _ (List.mem_cons_of_mem _ this)
          · intro c hc
            have := (List.drop_sublist _ _).mem hc
            exact List.mem_cons_of_mem _ (List.mem_cons_of_mem _ this)
          · rw [drop_length_takeWhile]
            rcases dropWhile_head_fails
                (fun c => !(c = '/' || c = '?' || c = '#')) rest0 with hd | ⟨c, t, hd, hf⟩
            · exact Or.inl hd
            · refine Or.inr ⟨c, t, hd, ?_⟩
              by_contra hcon
              push_neg at hcon
              simp [hcon.1, hcon.2.1, hcon.2.2] at hf
      · cases h
        exact absurd rfl hne

/-- Reparsing a rebuilt //netloc-tail prefix recovers the netloc when
the tail opens with '/', '?' or is empty. -/
theorem splitNetlocE_rebuilt (nl tail : List Char)
    (hnl : ∀ c ∈ nl, (!(c = '/' || c = '?' || c = '#')) = true)
    (hbr : ((nl.contains '[' && !nl.contains ']') ||
      (nl.contains ']' && !nl.contains '[')) = false)
    (htail : tail = [] ∨ (∃ t, tail = '/' :: t) ∨ ∃ t, tail = '?' :: t) :
    splitNetlocE ('/' :: '/' :: (nl ++ tail)) = Except.ok (nl, tail) := by
  have htake : (nl ++ tail).takeWhile (fun c => !(c = '/' || c = '?' || c = '#')) = nl := by
    rcases htail with rfl | ⟨t, rfl⟩ | ⟨t, rfl⟩
    · rw [List.append_nil, List.takeWhile_eq_self_iff]
      exact hnl
    · exact takeWhile_append_stop _ nl '/' t hnl (by simp)
    · exact takeWhile_append_stop _ nl '?' t hnl (by simp)
  simp only [splitNetlocE, htake]
  rw [if_pos ⟨trivial, trivial⟩]
  rw [if_neg (fun hcond => by rw [hbr] at hcond; exact Bool.noConfusion hcond)]
  rw [List.drop_left]

/-! Facts about the params splitter. -/

/-- The suffix after the last slash comes from the path. -/
theorem mem_afterLastSlash (p : List Char) (c : Char) (h : c ∈ afterLastSlash p) :
    c ∈ p := by
  simp only [afterLastSlash] at h
  rw [List.mem_reverse] at h
  have := (List.takeWhile_sublist _).mem h
  rwa [List.mem_reverse] at this

/-- The suffix after the last slash contains no slash. -/
theorem slash_not_mem_afterLastSlash (p : List Char) : '/' ∉ afterLastSlash p := by
  intro h
  simp only [afterLastSlash] at h
  rw [List.mem_reverse] at h
  have := List.mem_takeWhile_imp h
  simp at this

/-- Appending a slash-free suffix extends the after-last-slash part. -/
theorem afterLastSlash_append (a b : List Char) (hb : '/' ∉ b) :
    afterLastSlash (a ++ b) = afterLastSlash a ++ b := by
  simp only [afterLastSlash, List.reverse_append]
  rw [List.takeWhile_append_of_pos (by
    intro c hc
    rw [List.mem_reverse] at hc
    simp only [bne_iff_ne, ne_eq, decide_eq_true_eq]
    intro hcc
    exact hb (hcc ▸ hc))]
  rw [List.reverse_append, List.reverse_reverse]

/-- A path ending in a slash has nothing after its last slash. -/
theorem afterLastSlash_concat_slash (a : List Char) :
    afterLastSlash (a ++ ['/']) = [] := by
  simp only [afterLastSlash, List.reverse_append, List.reverse_cons, List.reverse_nil,
    List.nil_append, List.singleton_append, List.takeWhile_cons]
  simp

/-- dropWhile stops at the first slash when one is present. -/
theorem dropWhile_slash (l : List Char) (hmem : ('/' : Char) ∈ l) :
    ∃ t, l.dropWhile (fun c => c != '/') = '/' :: t := by
  induction l with
  | nil => simp at hmem
  | cons c rest ih =>
    by_cases hc : c = '/'
    · subst hc
      refine ⟨rest, ?_⟩
      simp [List.dropWhile]
    · have hmem2 : ('/' : Char) ∈ rest := by
        rcases List.mem_cons.mp hmem with h2 | h2
        · exact absurd h2.symm hc
        · exact h2
      obtain ⟨t, ht⟩ := ih hmem2
      refine ⟨t, ?_⟩
      rw [List.dropWhile_cons]
      simpa [hc] using ht

/-- A path containing a slash decomposes as a slash-terminated prefix
followed by the after-last-slash suffix. -/
theorem slash_decomp (p : List Char) (h : '/' ∈ p) :
    ∃ a, p = (a ++ ['/']) ++ afterLastSlash p ∧
      p.take (p.length - (afterLastSlash p).length) = a ++ ['/'] := by
  obtain ⟨t, ht⟩ := dropWhile_slash p.reverse (by rwa [List.mem_reverse])
  have hsplit : p.reverse.takeWhile (fun c => c != '/') ++
      p.reverse.dropWhile (fun c => c != '/') = p.reverse :=
    List.takeWhile_append_dropWhile (p := fun c => c != '/') (l := p.reverse)
  have h1 : p.reverse = p.reverse.takeWhile (fun c => c != '/') ++ '/' :: t := by
    rw [← ht]
    exact hsplit.symm
  have hp : p = (t.reverse ++ ['/']) ++ afterLastSlash p := by
    calc p = ((p.reverse.takeWhile (fun c => c != '/')) ++ '/' :: t).reverse := by
          rw [← h1, List.reverse_reverse]
    _ = ('/' :: t).reverse ++ (p.reverse.takeWhile (fun c => c != '/')).reverse := by
          rw [List.reverse_append]
    _ = (t.reverse ++ ['/']) ++ afterLastSlash p := by
          rw [List.reverse_cons]
          rfl
  refine ⟨t.reverse, hp, ?_⟩
  have hlen2 := congrArg List.length hp
  simp only [List.length_append, List.length_reverse, List.length_cons,
    List.length_nil] at hlen2
  have hlen : p.length - (afterLastSlash p).length = (t.reverse ++ ['/']).length := by
    simp only [List.length_append, List.length_reverse, List.length_cons, List.length_nil]
    omega
  rw [hlen]
  conv_lhs => rw [hp]
  exact List.take_left _ _

/-- Members of the params-split path come from the path. -/
theorem mem_of_mem_splitParamsPath (p : List Char) (c : Char)
    (h : c ∈ splitParamsPath p) : c ∈ p := by
  simp only [splitParamsPath] at h
  split at h
  · split at h
    · rcases List.mem_append.mp h with h2 | h2
      · exact (List.take_sublist _ _).mem h2
      · exact mem_afterLastSlash p c ((List.takeWhile_sublist _).mem h2)
    · exact h
  · exact (List.takeWhile_sublist _).mem h

/-- The params split is idempotent. -/
theorem splitParamsPath_idem (p : List Char) :
    splitParamsPath (splitParamsPath p) = splitParamsPath p := by
  by_cases hs : ('/' : Char) ∈ p
  · have hsc : p.contains '/' = true := by simpa using hs
    by_cases hsemi : (';' : Char) ∈ afterLastSlash p
    · have hsemic : (afterLastSlash p).contains ';' = true := by simpa using hsemi
      obtain ⟨a, hdecomp, htake⟩ := slash_decomp p hs
      have hp1 : splitParamsPath p =
          (a ++ ['/']) ++ (afterLastSlash p).takeWhile (fun c => c != ';') := by
        simp only [splitParamsPath, hsc, if_true, hsemic]
        rw [htake]
      rw [hp1]
      have htnoslash : '/' ∉ (afterLastSlash p).takeWhile (fun c => c != ';') := by
        intro hmem
        exact slash_not_mem_afterLastSlash p ((List.takeWhile_sublist _).mem hmem)
      have hslash2 : ('/' : Char) ∈ (a ++ ['/']) ++
          (afterLastSlash p).takeWhile (fun c => c != ';') := by
        apply List.mem_append.mpr
        left
        simp
      have hals2 : afterLastSlash ((a ++ ['/']) ++
          (afterLastSlash p).takeWhile (fun c => c != ';')) =
          (afterLastSlash p).takeWhile (fun c => c != ';') := by
        rw [afterLastSlash_append _ _ htnoslash, afterLastSlash_concat_slash]
        simp
      have hsemi2 : (afterLastSlash ((a ++ ['/']) ++
          (afterLastSlash p).takeWhile (fun c => c != ';'))).contains ';' = false := by
        rw [hals2]
        have hnot : (';' : Char) ∉ (afterLastSlash p).takeWhile (fun c => c != ';') := by
          intro hm
          have := List.mem_takeWhile_imp hm
          simp at this
        simpa using hnot
      have hsc2 : ((a ++ ['/']) ++
          (afterLastSlash p).takeWhile (fun c => c != ';')).contains '/' = true := by
        simp
      simp only [splitParamsPath, hsc2, if_true, hsemi2]
      simp
    · have hp1 : splitParamsPath p = p := by
        simp only [splitParamsPath, hsc, if_true]
        rw [if_neg (by simpa using hsemi)]
      rw [hp1]
      exact hp1
  · have hsc : p.contains '/' = false := by simpa using hs
    have hp1 : splitParamsPath p = p.takeWhile (fun c => c != ';') := by
      simp only [splitParamsPath, hsc]
      simp
    rw [hp1]
    have hnos : ('/' : Char) ∉ p.takeWhile (fun c => c != ';') :=
      fun hmem => hs ((List.takeWhile_sublist _).mem hmem)
    have hsc2 : (p.takeWhile (fun c => c != ';')).contains '/' = false := by
      simpa using hnos
    simp only [splitParamsPath, hsc2]
    rw [if_neg (by simp)]
    rw [List.takeWhile_eq_self_iff]
    intro x hx
    exact List.mem_takeWhile_imp (p := fun c => c != ';') hx

/-! Facts needed to reparse a normalized URL. -/

/-- keepChar from scalar-value disequalities. -/
theorem keepChar_of_toNat (c : Char) (h9 : c.toNat ≠ 9) (h13 : c.toNat ≠ 13)
    (h10 : c.toNat ≠ 10) : keepChar c = true := by
  simp only [keepChar, Bool.not_eq_true', Bool.or_eq_false_iff, decide_eq_false_iff_not,
    char_eq_iff_toNat]
  refine ⟨⟨fun h => h9 (by simpa using h), fun h => h13 (by simpa using h)⟩,
    fun h => h10 (by simpa using h)⟩

/-- Members of an '&'-join are the separator or field characters. -/
theorem mem_joinAmp (l : List (List Char)) (c : Char) (h : c ∈ joinAmp l) :
    c = '&' ∨ ∃ s ∈ l, c ∈ s := by
  induction l with
  | nil => simp [joinAmp] at h
  | cons s rest ih =>
    cases rest with
    | nil =>
      simp only [joinAmp] at h
      exact Or.inr ⟨s, List.mem_cons_self _ _, h⟩
    | cons s2 rest2 =>
      simp only [joinAmp] at h
      rcases List.mem_append.mp h with h2 | h2
      · exact Or.inr ⟨s, List.mem_cons_self _ _, h2⟩
      · rcases List.mem_cons.mp h2 with h3 | h3
        · exact Or.inl h3
        · rcases ih h3 with h4 | ⟨s3, hs3, hc3⟩
          · exact Or.inl h4
          · exact Or.inr ⟨s3, List.mem_cons_of_mem _ hs3, hc3⟩

/-- The tab character never occurs in quote_plus output. -/
theorem tab_not_mem_quotePlusChars (s : List Char) : '\t' ∉ quotePlusChars s :=
  not_mem_quotePlusChars '\t' s (by decide) (by decide) (by decide) (by decide) (by decide)
    (hexUpper_ne_of_fin '\t' (by decide))

/-- The CR character never occurs in quote_plus output. -/
theorem cr_not_mem_quotePlusChars (s : List Char) : '\r' ∉ quotePlusChars s :=
  not_mem_quotePlusChars '\r' s (by decide) (by decide) (by decide) (by decide) (by decide)
    (hexUpper_ne_of_fin '\r' (by decide))

/-- The LF character never occurs in quote_plus output. -/
theorem lf_not_mem_quotePlusChars (s : List Char) : '\n' ∉ quotePlusChars s :=
  not_mem_quotePlusChars '\n' s (by decide) (by decide) (by decide) (by decide) (by decide)
    (hexUpper_ne_of_fin '\n' (by decide))

/-- Classification of the characters of an urlencoded query. -/
theorem mem_urlencodeDoseq (d : List (List Char × List (List Char))) (c : Char)
    (h : c ∈ urlencodeDoseq d) :
    c = '&' ∨ c = '=' ∨ ∃ x, c ∈ quotePlusChars x := by
  simp only [urlencodeDoseq] at h
  rcases mem_joinAmp _ c h with h2 | ⟨s, hs, hc⟩
  · exact Or.inl h2
  · rcases List.mem_flatMap.mp hs with ⟨kv, hkv, hsin⟩
    rcases List.mem_map.mp hsin with ⟨v, hv, rfl⟩
    rcases List.mem_append.mp hc with h3 | h3
    · exact Or.inr (Or.inr ⟨kv.1, h3⟩)
    · rcases List.mem_cons.mp h3 with h4 | h4
      · exact Or.inr (Or.inl h4)
      · exact Or.inr (Or.inr ⟨v, h4⟩)

/-- Classification of the characters of a cleaned query. -/
theorem mem_cleanQueryStr (q : List Char) (c : Char) (h : c ∈ cleanQueryStr q) :
    c = '&' ∨ c = '=' ∨ ∃ x, c ∈ quotePlusChars x := by
  simp only [cleanQueryStr] at h
  split at h
  · simp at h
  · exact mem_urlencodeDoseq _ c h

/-- The fragment marker never occurs in a cleaned query. -/
theorem hash_not_mem_cleanQueryStr (q : List Char) : '#' ∉ cleanQueryStr q := by
  intro h
  rcases mem_cleanQueryStr q '#' h with h2 | h2 | ⟨x, h2⟩
  · exact absurd h2 (by decide)
  · exact absurd h2 (by decide)
  · exact hash_not_mem_quotePlusChars x h2

/-- The query marker never occurs in a cleaned query. -/
theorem qmark_not_mem_cleanQueryStr (q : List Char) : '?' ∉ cleanQueryStr q := by
  intro h
  rcases mem_cleanQueryStr q '?' h with h2 | h2 | ⟨x, h2⟩
  · exact absurd h2 (by decide)
  · exact absurd h2 (by decide)
  · exact qmark_not_mem_quotePlusChars x h2

/-- Every character of a cleaned query survives the unsafe-byte
removal. -/
theorem keepChar_cleanQueryStr (q : List Char) :
    ∀ c ∈ cleanQueryStr q, keepChar c = true := by
  intro c h
  rcases mem_cleanQueryStr q c h with h2 | h2 | ⟨x, h2⟩
  · subst h2
    decide
  · subst h2
    decide
  · apply keepChar_of_toNat
    · intro h9
      exact tab_not_mem_quotePlusChars x ((char_eq_of_toNat_eq c '\t' (by simpa using h9)) ▸ h2)
    · intro h13
      exact cr_not_mem_quotePlusChars x ((char_eq_of_toNat_eq c '\r' (by simpa using h13)) ▸ h2)
    · intro h10
      exact lf_not_mem_quotePlusChars x ((char_eq_of_toNat_eq c '\n' (by simpa using h10)) ▸ h2)

/-- splitHash keeps the head character when it is not '#'. -/
theorem splitHash_fst_head (c : Char) (t : List Char) (hc : (c != '#') = true) :
    ∃ t1, (splitHash (c :: t)).1 = c :: t1 := by
  have htw : List.takeWhile (fun x => x != '#') (c :: t) =
      c :: List.takeWhile (fun x => x != '#') t := by
    rw [List.takeWhile_cons, if_pos hc]
  simp only [splitHash, htw]
  by_cases hlen : (c :: List.takeWhile (fun x => x != '#') t).length < (c :: t).length
  · rw [if_pos hlen]
    exact ⟨List.takeWhile (fun x => x != '#') t, rfl⟩
  · rw [if_neg hlen]
    exact ⟨t, rfl⟩

/-- splitQmark keeps the head character when it is not '?'. -/
theorem splitQmark_fst_head (c : Char) (t : List Char) (hc : (c != '?') = true) :
    ∃ t1, (splitQmark (c :: t)).1 = c :: t1 := by
  have htw : List.takeWhile (fun x => x != '?') (c :: t) =
      c :: List.takeWhile (fun x => x != '?') t := by
    rw [List.takeWhile_cons, if_pos hc]
  simp only [splitQmark, htw]
  by_cases hlen : (c :: List.takeWhile (fun x => x != '?') t).length < (c :: t).length
  · rw [if_pos hlen]
    exact ⟨List.takeWhile (fun x => x != '?') t, rfl⟩
  · rw [if_neg hlen]
    exact ⟨t, rfl⟩

/-- splitQmark empties a query-led string. -/
theorem splitQmark_fst_head_qmark (t : List Char) : (splitQmark ('?' :: t)).1 = [] := by
  have htw : List.takeWhile (fun x => x != '?') ('?' :: t) = [] := by
    rw [List.takeWhile_cons, if_neg (by decide)]
  simp only [splitQmark, htw]
  rw [if_pos (by simp)]

/-- splitHash empties a fragment-led string. -/
theorem splitHash_fst_head_hash (t : List Char) : (splitHash ('#' :: t)).1 = [] := by
  have htw : List.takeWhile (fun x => x != '#') ('#' :: t) = [] := by
    rw [List.takeWhile_cons, if_neg (by decide)]
  simp only [splitHash, htw]
  rw [if_pos (by simp)]

/-- The path produced from the post-netloc remainder is empty or
absolute. -/
theorem path_head_shape (rest : List Char)
    (h : rest = [] ∨ ∃ c t, rest = c :: t ∧ (c = '/' ∨ c = '?' ∨ c = '#')) :
    (splitQmark (splitHash rest).1).1 = [] ∨
      ∃ t2, (splitQmark (splitHash rest).1).1 = '/' :: t2 := by
  rcases h with rfl | ⟨c, t, rfl, hc | hc | hc⟩
  · left
    rfl
  · subst hc
    obtain ⟨t1, ht1⟩ := splitHash_fst_head '/' t (by decide)
    rw [ht1]
    obtain ⟨t2, ht2⟩ := splitQmark_fst_head '/' t1 (by decide)
    rw [ht2]
    exact Or.inr ⟨t2, rfl⟩
  · subst hc
    obtain ⟨t1, ht1⟩ := splitHash_fst_head '?' t (by decide)
    rw [ht1, splitQmark_fst_head_qmark]
    exact Or.inl rfl
  · subst hc
    rw [splitHash_fst_head_hash]
    exact Or.inl rfl

/-- Characters of the cleaned input survive the unsafe-byte removal. -/
theorem keepChar_cleanForSplit (u : List Char) :
    ∀ c ∈ cleanForSplit u, keepChar c = true := by
  intro c h
  exact (List.mem_filter.mp h).2

/-- Facts a successful urlsplit with nonempty scheme and netloc gives
about its components. -/
theorem urlsplitE_ok_facts (u : List Char) (r : ParseResult)
    (h : urlsplitE u = Except.ok r) (hsch : r.scheme ≠ []) (hnet : r.netloc ≠ []) :
    (∃ c cs, r.scheme = (c :: cs).map Char.toLower ∧ c.isAlpha = true ∧
      cs.all isSchemeChar = true) ∧
    (∀ c ∈ r.netloc, (!(c = '/' || c = '?' || c = '#')) = true) ∧
    ((r.netloc.contains '[' && !r.netloc.contains ']') ||
      (r.netloc.contains ']' && !r.netloc.contains '[')) = false ∧
    '#' ∉ r.path ∧ '?' ∉ r.path ∧
    (r.path = [] ∨ ∃ t, r.path = '/' :: t) ∧
    (∀ c ∈ r.netloc, keepChar c = true) ∧
    (∀ c ∈ r.path, keepChar c = true) := by
  simp only [urlsplitE] at h
  cases hnl : splitNetlocE (splitScheme (cleanForSplit u)).2 with
  | error e =>
    rw [hnl] at h
    exact absurd h (by simp)
  | ok nr =>
    obtain ⟨nlv, restv⟩ := nr
    rw [hnl] at h
    dsimp only at h
    cases h
    dsimp only at hsch hnet ⊢
    have hnlfacts := splitNetlocE_ok_facts _ nlv restv hnl hnet
    obtain ⟨hnlpred, hnlbr, hnlmem, hrestmem, hrestshape⟩ := hnlfacts
    refine ⟨?_, hnlpred, hnlbr, ?_, ?_, ?_, ?_, ?_⟩
    · rcases splitScheme_fst_cases (cleanForSplit u) with hc | hc
      · exact absurd hc hsch
      · exact hc
    · intro hmem
      exact hash_not_mem_splitHash_fst restv (mem_of_mem_splitQmark_fst _ '#' hmem)
    · exact qmark_not_mem_splitQmark_fst _
    · exact path_head_shape restv hrestshape
    · intro c hc
      exact keepChar_cleanForSplit u c
        (mem_of_mem_splitScheme_snd _ c (hnlmem c hc))
    · intro c hc
      exact keepChar_cleanForSplit u c
        (mem_of_mem_splitScheme_snd _ c (hrestmem c (mem_of_mem_splitQmark_splitHash _ c hc)))

/-- Reparsing the URL normalize_url rebuilds yields exactly the
components it was built from. -/
theorem urlsplitE_rebuilt (sch nl pa q : List Char) (useQ : Bool)
    (hshape : ∃ c cs, sch = c :: cs ∧ c.isAlpha = true ∧ cs.all isSchemeChar = true ∧
      sch.map Char.toLower = sch)
    (hnl : ∀ c ∈ nl, (!(c = '/' || c = '?' || c = '#')) = true)
    (hbr : ((nl.contains '[' && !nl.contains ']') ||
      (nl.contains ']' && !nl.contains '[')) = false)
    (hnlKeep : ∀ c ∈ nl, keepChar c = true)
    (hpaHash : '#' ∉ pa) (hpaQ : '?' ∉ pa)
    (hpaHead : pa = [] ∨ ∃ t, pa = '/' :: t)
    (hpaKeep : ∀ c ∈ pa, keepChar c = true)
    (hqHash : '#' ∉ q) (hqKeep : ∀ c ∈ q, keepChar c = true) :
    urlsplitE (sch ++ ':' :: '/' :: '/' :: ((nl ++ pa) ++ (if useQ then '?' :: q else []))) =
      Except.ok ⟨sch, nl, pa, if useQ then q else [], []⟩ := by
  obtain ⟨c, cs, hsch_eq, hca, hcs, hlow⟩ := hshape
  have hschemeChars : ∀ x ∈ sch, isSchemeChar x = true := by
    intro x hx
    rw [hsch_eq] at hx
    rcases List.mem_cons.mp hx with hx2 | hx2
    · subst hx2
      exact isAlpha_isSchemeChar x hca
    · exact (List.all_eq_true.mp hcs) x hx2
  have hQHash : '#' ∉ (if useQ then '?' :: q else []) := by
    cases useQ with
    | false => simp
    | true =>
      simp only [if_true]
      intro hm
      rcases List.mem_cons.mp hm with hm2 | hm2
      · exact absurd hm2 (by decide)
      · exact hqHash hm2
  have hclean : cleanForSplit (sch ++ ':' :: '/' :: '/' ::
      ((nl ++ pa) ++ (if useQ then '?' :: q else []))) =
      sch ++ ':' :: '/' :: '/' :: ((nl ++ pa) ++ (if useQ then '?' :: q else [])) := by
    have hdrop : (sch ++ ':' :: '/' :: '/' ::
        ((nl ++ pa) ++ (if useQ then '?' :: q else []))).dropWhile c0ControlOrSpace =
        sch ++ ':' :: '/' :: '/' :: ((nl ++ pa) ++ (if useQ then '?' :: q else [])) := by
      rw [hsch_eq, List.cons_append, List.dropWhile_cons]
      rw [if_neg (by
        have := isAlpha_toNat c |>.mp hca
        simp only [c0ControlOrSpace, decide_eq_true_eq]
        omega)]
    have hfilter : ∀ a ∈ sch ++ ':' :: '/' :: '/' ::
        ((nl ++ pa) ++ (if useQ then '?' :: q else [])), keepChar a = true := by
      intro a ha
      rcases List.mem_append.mp ha with ha2 | ha2
      · have := isSchemeChar_facts a (hschemeChars a ha2)
        exact keepChar_of_toNat a this.2.2.1 this.2.2.2.1 this.2.2.2.2
      · rcases List.mem_cons.mp ha2 with ha3 | ha3
        · subst ha3; decide
        · rcases List.mem_cons.mp ha3 with ha4 | ha4
          · subst ha4; decide
          · rcases List.mem_cons.mp ha4 with ha5 | ha5
            · subst ha5; decide
            · rcases List.mem_append.mp ha5 with ha6 | ha6
              · rcases List.mem_append.mp ha6 with ha7 | ha7
                · exact hnlKeep a ha7
                · exact hpaKeep a ha7
              · cases useQ with
                | false => simp at ha6
                | true =>
                  simp only [if_true] at ha6
                  rcases List.mem_cons.mp ha6 with ha7 | ha7
                  · subst ha7; decide
                  · exact hqKeep a ha7
    simp only [cleanForSplit, hdrop, removeUnsafeBytes]
    exact List.filter_eq_self.mpr hfilter
  have hscheme : splitScheme (sch ++ ':' :: '/' :: '/' ::
      ((nl ++ pa) ++ (if useQ then '?' :: q else []))) =
      (sch, '/' :: '/' :: ((nl ++ pa) ++ (if useQ then '?' :: q else []))) :=
    splitScheme_rebuilt sch _ ⟨c, cs, hsch_eq, hca, hcs, hlow⟩
  have hassoc : (nl ++ pa) ++ (if useQ then '?' :: q else []) =
      nl ++ (pa ++ (if useQ then '?' :: q else [])) := List.append_assoc nl pa _
  have htail : (pa ++ (if useQ then '?' :: q else [])) = [] ∨
      (∃ t, pa ++ (if useQ then '?' :: q else []) = '/' :: t) ∨
      ∃ t, pa ++ (if useQ then '?' :: q else []) = '?' :: t := by
    rcases hpaHead with rfl | ⟨t, rfl⟩
    · cases useQ with
      | false => exact Or.inl rfl
      | true => exact Or.inr (Or.inr ⟨q, rfl⟩)
    · exact Or.inr (Or.inl ⟨t ++ (if useQ then '?' :: q else []), rfl⟩)
  have hnetloc : splitNetlocE ('/' :: '/' ::
      (nl ++ (pa ++ (if useQ then '?' :: q else [])))) =
      Except.ok (nl, pa ++ (if useQ then '?' :: q else [])) :=
    splitNetlocE_rebuilt nl _ hnl hbr htail
  have hhash : splitHash (pa ++ (if useQ then '?' :: q else [])) =
      (pa ++ (if useQ then '?' :: q else []), []) := by
    apply splitHash_of_not_mem
    intro hm
    rcases List.mem_append.mp hm with hm2 | hm2
    · exact hpaHash hm2
    · exact hQHash hm2
  have hqmark : splitQmark (pa ++ (if useQ then '?' :: q else [])) =
      (pa, if useQ then q else []) := by
    cases useQ with
    | false => simpa using splitQmark_of_not_mem pa hpaQ
    | true => simpa using splitQmark_append pa q hpaQ
  simp only [urlsplitE, hclean]
  rw [hscheme]
  dsimp only
  rw [hassoc, hnetloc]
  dsimp only
  rw [hhash]
  dsimp only
  rw [hqmark]

/-- The params split keeps a path empty or absolute. -/
theorem splitParamsPath_head_shape (p : List Char)
    (h : p = [] ∨ ∃ t, p = '/' :: t) :
    splitParamsPath p = [] ∨ ∃ t2, splitParamsPath p = '/' :: t2 := by
  rcases h with rfl | ⟨t, rfl⟩
  · left
    rfl
  · have hs : ('/' : Char) ∈ '/' :: t := List.mem_cons_self _ _
    have hsc : ('/' :: t).contains '/' = true := by simp
    by_cases hsemi : (afterLastSlash ('/' :: t)).contains ';' = true
    · obtain ⟨a, hdecomp, htake⟩ := slash_decomp _ hs
      have hlen := congrArg List.length hdecomp
      simp only [List.length_append, List.length_cons, List.length_nil] at hlen
      have hlenlt : (afterLastSlash ('/' :: t)).length < ('/' :: t).length := by
        simp only [List.length_cons]
        omega
      obtain ⟨k, hk⟩ : ∃ k, ('/' :: t).length - (afterLastSlash ('/' :: t)).length =
          k + 1 := by
        refine ⟨('/' :: t).length - (afterLastSlash ('/' :: t)).length - 1, ?_⟩
        omega
      right
      refine ⟨t.take k ++ (afterLastSlash ('/' :: t)).takeWhile (fun c => c != ';'), ?_⟩
      simp only [splitParamsPath, hsc, if_true, hsemi, if_true, hk]
      rw [List.take_succ_cons]
      rfl
    · right
      refine ⟨t, ?_⟩
      simp only [splitParamsPath, hsc, if_true]
      rw [if_neg (by simpa using hsemi)]

/-- Shape of the URL normalize_url rebuilds on parse success. -/
theorem normalizeList_shape (u : List Char) (r : ParseResult)
    (h : urlparseE u = Except.ok r) :
    normalizeList u = r.scheme ++ ':' :: '/' :: '/' :: ((r.netloc ++ r.path) ++
      (if (cleanQueryStr r.query).isEmpty then [] else '?' :: cleanQueryStr r.query)) := by
  simp only [normalizeList, h]
  by_cases hq : (cleanQueryStr r.query).isEmpty = true
  · rw [if_pos hq, if_pos hq]
    simp
  · rw [if_neg hq, if_neg hq]
    simp [List.append_assoc]

/-- The query rewrite of normalize_url is idempotent. -/
theorem cleanQueryStr_idem (q : List Char) :
    cleanQueryStr (cleanQueryStr q) = cleanQueryStr q := by
  by_cases hemp :
      ((parseQs q).filter fun kv => decide (kv.1 ∉ trackingParams)).isEmpty = true
  · have h0 : cleanQueryStr q = [] := by
      simp only [cleanQueryStr]
      rw [if_pos hemp]
    rw [h0]
    rfl
  · have hd1 : cleanQueryStr q =
        urlencodeDoseq ((parseQs q).filter fun kv => decide (kv.1 ∉ trackingParams)) := by
      simp only [cleanQueryStr]
      rw [if_neg hemp]
    have hunfold : ∀ x, cleanQueryStr x =
        if ((parseQs x).filter fun kv => decide (kv.1 ∉ trackingParams)).isEmpty then []
        else urlencodeDoseq ((parseQs x).filter fun kv => decide (kv.1 ∉ trackingParams)) :=
      fun x => rfl
    rw [hunfold (cleanQueryStr q)]
    rw [parseQs_cleanQueryStr q]
    have hff : (((parseQs q).filter fun kv => decide (kv.1 ∉ trackingParams)).filter
        fun kv => decide (kv.1 ∉ trackingParams)) =
        (parseQs q).filter fun kv => decide (kv.1 ∉ trackingParams) :=
      List.filter_eq_self.mpr (fun a ha => (List.mem_filter.mp ha).2)
    rw [hff]
    rw [if_neg hemp]
    exact hd1.symm

/-- urlparse of the rebuilt URL also returns the built components when
the path is stable under the params split. -/
theorem urlparseE_rebuilt (sch nl pa q : List Char) (useQ : Bool)
    (hshape : ∃ c cs, sch = c :: cs ∧ c.isAlpha = true ∧ cs.all isSchemeChar = true ∧
      sch.map Char.toLower = sch)
    (hnl : ∀ c ∈ nl, (!(c = '/' || c = '?' || c = '#')) = true)
    (hbr : ((nl.contains '[' && !nl.contains ']') ||
      (nl.contains ']' && !nl.contains '[')) = false)
    (hnlKeep : ∀ c ∈ nl, keepChar c = true)
    (hpaHash : '#' ∉ pa) (hpaQ : '?' ∉ pa)
    (hpaHead : pa = [] ∨ ∃ t, pa = '/' :: t)
    (hpaKeep : ∀ c ∈ pa, keepChar c = true)
    (hqHash : '#' ∉ q) (hqKeep : ∀ c ∈ q, keepChar c = true)
    (hstab : (usesParams.contains sch && pa.contains ';') = true →
      splitParamsPath pa = pa) :
    urlparseE (sch ++ ':' :: '/' :: '/' :: ((nl ++ pa) ++ (if useQ then '?' :: q else []))) =
      Except.ok ⟨sch, nl, pa, if useQ then q else [], []⟩ := by
  simp only [urlparseE]
  rw [urlsplitE_rebuilt sch nl pa q useQ hshape hnl hbr hnlKeep hpaHash hpaQ hpaHead
    hpaKeep hqHash hqKeep]
  dsimp only
  by_cases hcond : (usesParams.contains sch && pa.contains ';') = true
  · rw [if_pos hcond, hstab hcond]
  · rw [if_neg hcond]

/-- normalize_url is idempotent on inputs that parse with a scheme and
a netloc. -/
theorem normalizeList_idem (u : List Char) (r : ParseResult)
    (hpE : urlparseE u = Except.ok r) (hs : r.scheme ≠ []) (hn : r.netloc ≠ []) :
    normalizeList (normalizeList u) = normalizeList u := by
  have hmain : ∀ r0 : ParseResult, urlsplitE u = Except.ok r0 →
      r.scheme = r0.scheme → r.netloc = r0.netloc → r.query = r0.query →
      (r.path = splitParamsPath r0.path ∨ r.path = r0.path) →
      ((usesParams.contains r.scheme && r.path.contains ';') = true →
        splitParamsPath r.path = r.path) →
      normalizeList (normalizeList u) = normalizeList u := by
    intro r0 hsp hsch hnet hq hpath hstab
    have hs0 : r0.scheme ≠ [] := by
      rw [← hsch]
      exact hs
    have hn0 : r0.netloc ≠ [] := by
      rw [← hnet]
      exact hn
    obtain ⟨hshape0, hnlpred, hnlbr, hpaHash0, hpaQ0, hpaHead0, hnlKeep0, hpaKeep0⟩ :=
      urlsplitE_ok_facts u r0 hsp hs0 hn0
    have hpaHash : '#' ∉ r.path := by
      rcases hpath with h1 | h1
      · rw [h1]
        intro hm
        exact hpaHash0 (mem_of_mem_splitParamsPath _ _ hm)
      · rw [h1]
        exact hpaHash0
    have hpaQ : '?' ∉ r.path := by
      rcases hpath with h1 | h1
      · rw [h1]
        intro hm
        exact hpaQ0 (mem_of_mem_splitParamsPath _ _ hm)
      · rw [h1]
        exact hpaQ0
    have hpaHead : r.path = [] ∨ ∃ t, r.path = '/' :: t := by
      rcases hpath with h1 | h1
      · rw [h1]
        exact splitParamsPath_head_shape _ hpaHead0
      · rw [h1]
        exact hpaHead0
    have hpaKeep : ∀ c ∈ r.path, keepChar c = true := by
      rcases hpath with h1 | h1
      · rw [h1]
        intro c hc
        exact hpaKeep0 c (mem_of_mem_splitParamsPath _ _ hc)
      · rw [h1]
        exact hpaKeep0
    have hshapeR : ∃ c cs, r.scheme = c :: cs ∧ c.isAlpha = true ∧
        cs.all isSchemeChar = true ∧ r.scheme.map Char.toLower = r.scheme := by
      obtain ⟨c2, cs2, he, ha, hall, hlow, _⟩ := schemeOK_shape r0.scheme hshape0
      refine ⟨c2, cs2, ?_, ha, hall, ?_⟩
      · rw [hsch]
        exact he
      · rw [hsch]
        exact hlow
    have hnlpredR : ∀ c ∈ r.netloc, (!(c = '/' || c = '?' || c = '#')) = true := by
      rw [hnet]
      exact hnlpred
    have hnlbrR : ((r.netloc.contains '[' && !r.netloc.contains ']') ||
        (r.netloc.contains ']' && !r.netloc.contains '[')) = false := by
      rw [hnet]
      exact hnlbr
    have hnlKeepR : ∀ c ∈ r.netloc, keepChar c = true := by
      rw [hnet]
      exact hnlKeep0
    have hS := normalizeList_shape u r hpE
    by_cases hqe : (cleanQueryStr r.query).isEmpty = true
    · have hreparse := urlparseE_rebuilt r.scheme r.netloc r.path [] false hshapeR
        hnlpredR hnlbrR hnlKeepR hpaHash hpaQ hpaHead hpaKeep (by simp) (by simp) hstab
      have hreparse2 : urlparseE (normalizeList u) =
          Except.ok ⟨r.scheme, r.netloc, r.path, [], []⟩ := by
        rw [hS, if_pos hqe]
        simpa using hreparse
      have hfinal := normalizeList_shape (normalizeList u)
        ⟨r.scheme, r.netloc, r.path, [], []⟩ hreparse2
      rw [hfinal]
      dsimp only
      rw [show cleanQueryStr ([] : List Char) = [] from rfl]
      rw [hS, if_pos hqe]
      simp
    · have hreparse := urlparseE_rebuilt r.scheme r.netloc r.path
        (cleanQueryStr r.query) true hshapeR hnlpredR hnlbrR hnlKeepR hpaHash hpaQ
        hpaHead hpaKeep (hash_not_mem_cleanQueryStr _) (keepChar_cleanQueryStr _) hstab
      have hreparse2 : urlparseE (normalizeList u) =
          Except.ok ⟨r.scheme, r.netloc, r.path, cleanQueryStr r.query, []⟩ := by
        rw [hS, if_neg hqe]
        simpa using hreparse
      have hfinal := normalizeList_shape (normalizeList u)
        ⟨r.scheme, r.netloc, r.path, cleanQueryStr r.query, []⟩ hreparse2
      rw [hfinal]
      dsimp only
      rw [cleanQueryStr_idem r.query]
      rw [if_neg hqe]
      rw [hS, if_neg hqe]
  have hp2 := hpE
  simp only [urlparseE] at hp2
  cases hsp : urlsplitE u with
  | error e =>
    rw [hsp] at hp2
    exact absurd hp2 (by simp)
  | ok r0 =>
    rw [hsp] at hp2
    dsimp only at hp2
    by_cases hcond : (usesParams.contains r0.scheme && r0.path.contains ';') = true
    · rw [if_pos hcond] at hp2
      have hr := Except.ok.inj hp2
      apply hmain r0 hsp
      · rw [← hr]
      · rw [← hr]
      · rw [← hr]
      · left
        rw [← hr]
      · intro h
        rw [← hr]
        exact splitParamsPath_idem r0.path
    · rw [if_neg hcond] at hp2
      have hr := Except.ok.inj hp2
      apply hmain r0 hsp
      · rw [← hr]
      · rw [← hr]
      · rw [← hr]
      · right
        rw [← hr]
      · intro h
        rw [← hr] at h
        exact absurd h hcond

/-- Relation between a successful urlparse and the underlying urlsplit:
the scheme, netloc and query agree, the path is at most params-split,
and the resulting path is stable under a further params split whenever
the split condition holds for it. -/
theorem urlparseE_ok_split (u : List Char) (r : ParseResult)
    (h : urlparseE u = Except.ok r) :
    ∃ r0, urlsplitE u = Except.ok r0 ∧ r.scheme = r0.scheme ∧ r.netloc = r0.netloc ∧
      r.query = r0.query ∧ (r.path = splitParamsPath r0.path ∨ r.path = r0.path) ∧
      ((usesParams.contains r.scheme && r.path.contains ';') = true →
        splitParamsPath r.path = r.path) := by
  simp only [urlparseE] at h
  cases hsp : urlsplitE u with
  | error e =>
    rw [hsp] at h
    exact absurd h (by simp)
  | ok r0 =>
    rw [hsp] at h
    dsimp only at h
    by_cases hcond : (usesParams.contains r0.scheme && r0.path.contains ';') = true
    · rw [if_pos hcond] at h
      have hr := Except.ok.inj h
      refine ⟨r0, rfl, ?_, ?_, ?_, Or.inl ?_, ?_⟩
      · rw [← hr]
      · rw [← hr]
      · rw [← hr]
      · rw [← hr]
      · intro hx
        rw [← hr]
        exact splitParamsPath_idem r0.path
    · rw [if_neg hcond] at h
      have hr := Except.ok.inj h
      refine ⟨r0, rfl, ?_, ?_, ?_, Or.inr ?_, ?_⟩
      · rw [← hr]
      · rw [← hr]
      · rw [← hr]
      · rw [← hr]
      · intro hx
        rw [← hr] at hx
        exact absurd hx hcond

/-- The rebuilt URL never contains a fragment marker when the parse
succeeded with a scheme and a netloc. -/
theorem hash_not_mem_normalizeList (u : List Char) (r : ParseResult)
    (h : urlparseE u = Except.ok r) (hs : r.scheme ≠ []) (hn : r.netloc ≠ []) :
    '#' ∉ normalizeList u := by
  obtain ⟨r0, hsp, hsch, hnet, hq, hpath, _⟩ := urlparseE_ok_split u r h
  have hs0 : r0.scheme ≠ [] := by
    rw [← hsch]
    exact hs
  have hn0 : r0.netloc ≠ [] := by
    rw [← hnet]
    exact hn
  obtain ⟨hshape0, hnlpred, _, hpaHash0, _, _, _, _⟩ :=
    urlsplitE_ok_facts u r0 hsp hs0 hn0
  rw [normalizeList_shape u r h]
  intro hmem
  rcases List.mem_append.mp hmem with hm | hm
  · rw [hsch] at hm
    obtain ⟨c, cs, hse, hca, hcs⟩ := hshape0
    rw [hse] at hm
    rcases List.mem_map.mp hm with ⟨y, hy, hyl⟩
    have hysch : isSchemeChar y = true := by
      rcases List.mem_cons.mp hy with h1 | h1
      · rw [h1]
        exact isAlpha_isSchemeChar c hca
      · exact (List.all_eq_true.mp hcs) y h1
    have hlow := toLower_isSchemeChar y hysch
    rw [hyl] at hlow
    exact absurd hlow (by decide)
  · rcases List.mem_cons.mp hm with h1 | hm
    · exact absurd h1 (by decide)
    rcases List.mem_cons.mp hm with h1 | hm
    · exact absurd h1 (by decide)
    rcases List.mem_cons.mp hm with h1 | hm
    · exact absurd h1 (by decide)
    rcases List.mem_append.mp hm with hm2 | hm2
    · rcases List.mem_append.mp hm2 with hm3 | hm3
      · rw [hnet] at hm3
        have := hnlpred '#' hm3
        simp at this
      · rcases hpath with h1 | h1
        · rw [h1] at hm3
          exact hpaHash0 (mem_of_mem_splitParamsPath _ _ hm3)
        · rw [h1] at hm3
          exact hpaHash0 hm3
    · by_cases hqe : (cleanQueryStr r.query).isEmpty = true
      · rw [if_pos hqe] at hm2
        simp at hm2
      · rw [if_neg hqe] at hm2
        rcases List.mem_cons.mp hm2 with h1 | h1
        · exact absurd h1 (by decide)
        · exact hash_not_mem_cleanQueryStr _ h1

/-- C6 counterexample: "not a url" has neither scheme nor host, yet
urlparse accepts it (everything lands in the path), so normalize_url
rebuilds it as "://not a url" rather than returning it unchanged. -/
theorem C6_counterexample :
    is_valid_url "not a url" = false ∧
    normalize_url "not a url" = "://not a url" ∧
    normalize_url "not a url" ≠ "not a url" := by
  refine ⟨by decide, by decide, by decide⟩

/-- C6 (amended): normalize_url returns the input string completely
unchanged exactly on the inputs where urlparse fails (raises), such as
a netloc with an unmatched bracket; a merely malformed string that
urlparse still accepts is rebuilt and may differ from the input. -/
theorem C6_parse_failure_unchanged (s : String)
    (h : urlparseE s.data = Except.error ()) : normalize_url s = s := by
  show String.mk (normalizeList s.data) = s
  simp only [normalizeList, h]

/-- Witness for C6_parse_failure_unchanged: "http://[x" makes urlparse
raise on the unmatched bracket and is returned unchanged. -/
theorem C6_parse_failure_unchanged_witness :
    urlparseE ("http://[x" : String).data = Except.error () ∧
    normalize_url "http://[x" = "http://[x" :=
  ⟨rfl, C6_parse_failure_unchanged "http://[x" rfl⟩

/-- C7 counterexample: "keep" is not on the tracking deny-list, yet a
blank-valued keep= parameter is removed too, because parse_qs (with
default keep_blank_values=False) drops parameters with empty values, so
normalize_url does not remove EXACTLY the deny-listed parameters. -/
theorem C7_counterexample :
    ("keep" : String).data ∉ trackingParams ∧
    normalize_url "https://example.com/a?keep=&utm_source=x" = "https://example.com/a" := by
  refine ⟨by decide, by decide⟩

/-- C7 (amended): the spec's example holds and the fragment is dropped
entirely on every URL that parses with a scheme and netloc; tracking
removal is exact only at the level of the parse_qs dictionary (which
itself drops blank-valued parameters and regroups duplicate keys): the
surviving parsed entries are precisely the non-deny-listed ones. -/
theorem C7_tracking_removal :
    normalize_url "https://example.com/a?utm_source=x&keep=1#frag" =
      "https://example.com/a?keep=1" ∧
    ∀ (s : String) (r : ParseResult), urlparseE s.data = Except.ok r →
      r.scheme ≠ [] → r.netloc ≠ [] →
      '#' ∉ (normalize_url s).data ∧
      parseQs (cleanQueryStr r.query) =
        (parseQs r.query).filter fun kv => decide (kv.1 ∉ trackingParams) := by
  constructor
  · decide
  · intro s r h hs hn
    exact ⟨hash_not_mem_normalizeList s.data r h hs hn, parseQs_cleanQueryStr r.query⟩

/-- Witness for C7_tracking_removal at "https://example.com/a?b=1#f". -/
theorem C7_tracking_removal_witness :
    normalize_url "https://example.com/a?utm_source=x&keep=1#frag" =
      "https://example.com/a?keep=1" ∧
    ('#' ∉ (normalize_url "https://example.com/a?b=1#f").data ∧
      parseQs (cleanQueryStr ("b=1" : String).data) =
        (parseQs ("b=1" : String).data).filter fun kv => decide (kv.1 ∉ trackingParams)) :=
  ⟨C7_tracking_removal.1,
   C7_tracking_removal.2 "https://example.com/a?b=1#f"
     ⟨("https" : String).data, ("example.com" : String).data, ("/a" : String).data,
      ("b=1" : String).data, ("f" : String).data⟩ rfl (by decide) (by decide)⟩

/-- C8 counterexample: with duplicate keys the surviving parameters do
NOT keep their original relative order: parse_qs groups the values of a
key at its first occurrence, so a=1&b=2&a=3 is re-emitted as
a=1&a=3&b=2, moving b=2 after the second a. -/
theorem C8_counterexample :
    normalize_url "https://example.com/a?a=1&b=2&a=3" = "https://example.com/a?a=1&a=3&b=2" ∧
    normalize_url "https://example.com/a?a=1&b=2&a=3" ≠ "https://example.com/a?a=1&b=2&a=3" := by
  refine ⟨by decide, by decide⟩

/-- C8 (amended): at the level of the parse_qs dictionary the rewrite
keeps exactly the entries whose key is off the deny-list, each with its
full value list intact, in the dictionary's order (keys ordered by
first occurrence in the raw query, duplicate keys grouped); the raw
relative order of parameters with interleaved duplicate keys is not
preserved. -/
theorem C8_query_params_preserved :
    ∀ q : List Char, parseQs (cleanQueryStr q) =
      (parseQs q).filter fun kv => decide (kv.1 ∉ trackingParams) :=
  fun q => parseQs_cleanQueryStr q

/-- Witness for C8_query_params_preserved at a=1&utm_source=x. -/
theorem C8_query_params_preserved_witness :
    parseQs (cleanQueryStr ("a=1&utm_source=x" : String).data) =
      (parseQs ("a=1&utm_source=x" : String).data).filter
        fun kv => decide (kv.1 ∉ trackingParams) :=
  C8_query_params_preserved ("a=1&utm_source=x" : String).data

/-- C10: normalize_url is idempotent on every string is_valid_url
accepts: a second normalization changes nothing. -/
theorem C10_normalize_idempotent (s : String) (h : is_valid_url s = true) :
    normalize_url (normalize_url s) = normalize_url s := by
  simp only [is_valid_url] at h
  cases hp : urlparseE s.data with
  | error e =>
    rw [hp] at h
    exact absurd h (by simp)
  | ok r =>
    rw [hp] at h
    dsimp only at h
    rw [Bool.and_eq_true] at h
    obtain ⟨h1, h2⟩ := h
    have hs : r.scheme ≠ [] := by
      intro he
      rw [he] at h1
      simp at h1
    have hn : r.netloc ≠ [] := by
      intro he
      rw [he] at h2
      simp at h2
    exact congrArg String.mk (normalizeList_idem s.data r hp hs hn)

/-- Witness for C10_normalize_idempotent at a URL with tracking
parameters and a fragment. -/
theorem C10_normalize_idempotent_witness :
    is_valid_url "https://example.com/a?utm_source=x&keep=1#frag" = true ∧
    normalize_url (normalize_url "https://example.com/a?utm_source=x&keep=1#frag") =
      normalize_url "https://example.com/a?utm_source=x&keep=1#frag" :=
  ⟨by decide, C10_normalize_idempotent "https://example.com/a?utm_source=x&keep=1#frag" (by decide)⟩

end FathomDeck
